import Mathlib

set_option maxRecDepth 20000

/-!
Verification of the space-efficient resizable array `ResizableArray<T, R>`
(include/rarray.h, include/rarray_impl.tpp).

The container keeps its N elements in levels 1 .. r-1; level k holds blocks of
capacity B^k.  The embedding below is a direct functional translation:

* a block is the list of its constructed elements (every block is full, except
  the last block of level 1 whose constructed prefix has length `n0`; C++ keeps
  the full capacity allocated and never reads past the constructed prefix, so
  writing slot `n0` of the last block is modelled by appending to that list and
  removing the last element is modelled by `dropLast`);
* `levels` maps a level index to its list of blocks (the C++ array of
  `DynamicArray<DataBlock>`; levels 0 and >= r stay empty), `n` maps a level to
  its recorded block count `n_[k]` (kept separately from the list lengths,
  exactly as the source keeps `n_` next to `levels_[k].size`);
* machine integers (`size_t`) are modelled as `Nat`;
* each C++ `throw` site is a `Fault` value; operations that mutate return the
  object state together with an optional fault, the state being the one at the
  moment of the throw (all throws in the source happen before any mutation of
  the throwing operation, which the definitions mirror);
* the bounds-checked pointer reads (`DynamicArray::at`, `DataBlock::data[p]`)
  that cannot fail on structurally sound states are modelled by the total list
  operations `getD`, `take`, `drop`.
-/

namespace RArr

/-- One value per `throw` site of the source (the two `std::out_of_range`
conditions of the public interface, the internal `std::runtime_error`s, and the
null dereference that `grow` performs on a moved-from object). -/
inductive Fault where
  | indexOutOfRange
  | emptyContainer
  | combineNoK
  | splitNothing
  | getInternalN1
  | getPastN0
  | nullDeref
deriving DecidableEq

/-- The state of a `ResizableArray<T, R>` object whose internal arrays are
allocated: element count `N_`, base block size `B_`, per-level block lists
`levels_`, per-level block counts `n_`, and the fill `n0_` of the last level-1
block. -/
structure RA (α : Type) where
  N : Nat
  B : Nat
  levels : Nat → List (List α)
  n : Nat → Nat
  n0 : Nat

/-- Pointwise update of a level-indexed map (a store to `levels_[k]` or `n_[k]`). -/
def updF {β : Type} (f : Nat → β) (k : Nat) (v : β) : Nat → β :=
  fun j => if j = k then v else f j

/-- The binary-exponentiation loop of `ResizableArray::power`. -/
def powerLoop : Nat → Nat → Nat → Nat → Nat
  | 0, _, _, result => result
  | fuel+1, base, expo, result =>
    if expo = 0 then result
    else powerLoop fuel (base * base) (expo / 2)
      (if expo % 2 = 1 then result * base else result)

/-- The `power` helper: `power base expo` computes `base ^ expo` (the fuel
`expo` always covers the square-and-multiply iterations, which stop on their
own once the exponent reaches 0). -/
def power (base expo : Nat) : Nat := powerLoop expo base expo 1

/-- Read path of `ResizableArray::get`, level-1 part: all blocks but the last
are full (B elements each); the last block holds `n0` elements. -/
def getLevel1 {α : Type} [Inhabited α] (s : RA α) (x : Nat) : Except Fault α :=
  if s.n 1 = 0 then .error .getInternalN1
  else if x < (s.n 1 - 1) * s.B then
    .ok (((s.levels 1).getD (x / s.B) []).getD (x % s.B) default)
  else if s.n0 ≤ x - (s.n 1 - 1) * s.B then .error .getPastN0
  else .ok (((s.levels 1).getD (s.n 1 - 1) []).getD (x - (s.n 1 - 1) * s.B) default)

/-- Read path of `ResizableArray::get`, walking levels `lvl, lvl-1, ..., 2`
(the source loop from `R-1` down to `2`), then level 1. -/
def getBig {α : Type} [Inhabited α] (s : RA α) : Nat → Nat → Except Fault α
  | 0, x => getLevel1 s x
  | 1, x => getLevel1 s x
  | lvl+2, x =>
    if x < s.n (lvl+2) * power s.B (lvl+2) then
      .ok (((s.levels (lvl+2)).getD (x / power s.B (lvl+2)) []).getD
        (x % power s.B (lvl+2)) default)
    else getBig s (lvl+1) (x - s.n (lvl+2) * power s.B (lvl+2))

/-- `ResizableArray::get`: bounds check against `N_`, then the level walk. -/
def get {α : Type} [Inhabited α] (r : Nat) (s : RA α) (index : Nat) : Except Fault α :=
  if s.N ≤ index then .error .indexOutOfRange
  else getBig s (r - 1) index

/-- Store `v` into slot `off` of block `b` of level `lvl` (a write through the
reference returned by `get`). -/
def writeBlock {α : Type} (s : RA α) (lvl b off : Nat) (v : α) : RA α :=
  let newBlk := ((s.levels lvl).getD b []).set off v
  { s with levels := updF s.levels lvl ((s.levels lvl).set b newBlk) }

/-- Write path of `ResizableArray::set` (which is `get(index) = item`),
level-1 part; same traversal as `getLevel1`. -/
def setLevel1 {α : Type} (s : RA α) (x : Nat) (v : α) : RA α × Option Fault :=
  if s.n 1 = 0 then (s, some .getInternalN1)
  else if x < (s.n 1 - 1) * s.B then
    (writeBlock s 1 (x / s.B) (x % s.B) v, none)
  else if s.n0 ≤ x - (s.n 1 - 1) * s.B then (s, some .getPastN0)
  else (writeBlock s 1 (s.n 1 - 1) (x - (s.n 1 - 1) * s.B) v, none)

/-- Write path of `ResizableArray::set`, big levels; same traversal as `getBig`. -/
def setBig {α : Type} (s : RA α) : Nat → Nat → α → RA α × Option Fault
  | 0, x, v => setLevel1 s x v
  | 1, x, v => setLevel1 s x v
  | lvl+2, x, v =>
    if x < s.n (lvl+2) * power s.B (lvl+2) then
      (writeBlock s (lvl+2) (x / power s.B (lvl+2)) (x % power s.B (lvl+2)) v, none)
    else setBig s (lvl+1) (x - s.n (lvl+2) * power s.B (lvl+2)) v

/-- `ResizableArray::set`: bounds check against `N_`, then write through the
`get` traversal. -/
def set {α : Type} (r : Nat) (s : RA α) (index : Nat) (v : α) : RA α × Option Fault :=
  if s.N ≤ index then (s, some .indexOutOfRange)
  else setBig s (r - 1) index v

/-- The search `k = min { i in [1, r-1] | n_[i] < bound }` of `combineBlocks`
(the C++ for-loop from `i = 1` to `R-1`, `fuel` iterations left, current `i`). -/
def scanLt (n : Nat → Nat) (bound : Nat) : Nat → Nat → Option Nat
  | _, 0 => none
  | i, fuel+1 => if n i < bound then some i else scanLt n bound (i+1) fuel

/-- One iteration of the `combineBlocks` loop at level `i`: merge the first `B`
blocks of level `i` (copying exactly `B^i` elements from each) into one new
block appended to level `i+1`; the remaining blocks of level `i` shift down and
its size is set to `B`. -/
def combineStep {α : Type} (s : RA α) (i : Nat) : RA α :=
  let li := s.levels i
  let big := ((li.take s.B).map (fun blk => blk.take (power s.B i))).flatten
  { s with
    levels := updF (updF s.levels i ((li.drop s.B).take s.B)) (i+1)
      (s.levels (i+1) ++ [big]),
    n := updF (updF s.n i s.B) (i+1) (s.n (i+1) + 1) }

/-- The `combineBlocks` loop, `for i = k-1 down to 1`; the argument is the
current value of `i`. -/
def combineLoop {α : Type} : RA α → Nat → RA α
  | s, 0 => s
  | s, i+1 => combineLoop (combineStep s (i+1)) i

/-- `ResizableArray::combineBlocks`: find the smallest level `k` with
`n_[k] < 2B` (throwing if none exists), then merge upward from `k-1` down to 1. -/
def combineBlocks {α : Type} (r : Nat) (s : RA α) : RA α × Option Fault :=
  match scanLt s.n (2 * s.B) 1 (r - 1) with
  | none => (s, some .combineNoK)
  | some k => (combineLoop s (k - 1), none)

/-- The search `k = min { i in [2, r-1] | n_[i] > 0 }` of `splitBlocks`. -/
def scanPos (n : Nat → Nat) : Nat → Nat → Option Nat
  | _, 0 => none
  | i, fuel+1 => if 0 < n i then some i else scanPos n (i+1) fuel

/-- Cut `cnt` consecutive slices of `sm` elements out of `big` (the split copy
`tmp[j]->data[p] = big->data[j*smallSize + p]`). -/
def chunkList {α : Type} (sm : Nat) : Nat → List α → List (List α)
  | 0, _ => []
  | cnt+1, big => big.take sm :: chunkList sm cnt (big.drop sm)

/-- The `splitBlocks` loop, `for i = k-1 down to 1`, carrying the block being
split: at level 1 all `B` slices are appended; at a level `i >= 2` the first
`B-1` slices are appended and the last slice is carried further down. -/
def splitLoop {α : Type} : RA α → Nat → List α → RA α
  | s, 0, _ => s
  | s, 1, big =>
    let tmp := chunkList (power s.B 1) s.B big
    { s with levels := updF s.levels 1 (s.levels 1 ++ tmp),
             n := updF s.n 1 (s.n 1 + s.B) }
  | s, i+2, big =>
    let tmp := chunkList (power s.B (i+2)) s.B big
    splitLoop
      { s with levels := updF s.levels (i+2) (s.levels (i+2) ++ tmp.take (s.B - 1)),
               n := updF s.n (i+2) (s.n (i+2) + (s.B - 1)) }
      (i+1) (tmp.getD (s.B - 1) [])

/-- `ResizableArray::splitBlocks`: find the smallest level `k >= 2` with a
block (throwing if none), detach its last block, split it downward, and mark
the last level-1 block full (`n0_ = B_`). -/
def splitBlocks {α : Type} (r : Nat) (s : RA α) : RA α × Option Fault :=
  match scanPos s.n 2 (r - 2) with
  | none => (s, some .splitNothing)
  | some k =>
    let s1 : RA α :=
      { s with levels := updF s.levels k (s.levels k).dropLast,
               n := updF s.n k (s.n k - 1) }
    let s2 := splitLoop s1 (k - 1) ((s.levels k).getD (s.n k - 1) [])
    ({ s2 with n0 := s2.B }, none)

/-- Allocate a fresh empty level-1 block (`levels_[1].push_back(new DataBlock(B_));
n_[1] += 1; n0_ = 0;`).  The fresh block has no constructed element yet. -/
def pushNewBlock {α : Type} (s : RA α) : RA α :=
  { s with levels := updF s.levels 1 (s.levels 1 ++ [[]]),
           n := updF s.n 1 (s.n 1 + 1),
           n0 := 0 }

/-- Write the appended element into slot `n0_` of the last level-1 block and
bump `n0_` and `N_`. -/
def writeLastSlot {α : Type} (x : α) (s : RA α) : RA α :=
  let newBlk := ((s.levels 1).getD (s.n 1 - 1) []) ++ [x]
  { s with levels := updF s.levels 1 ((s.levels 1).set (s.n 1 - 1) newBlk),
           n0 := s.n0 + 1,
           N := s.N + 1 }

/-- The body of `ResizableArray::grow` after the rebuild check: the combine
step, the new-block step and the write are sequential, not mutually exclusive. -/
def growCore {α : Type} (r : Nat) (x : α) (s : RA α) : RA α × Option Fault :=
  match (if s.n 1 = 2 * s.B ∧ s.n0 = s.B then combineBlocks r s else (s, none)) with
  | (s1, some e) => (s1, some e)
  | (s1, none) =>
    let s2 := if s1.n 1 = 0 ∨ s1.n0 = s1.B then pushNewBlock s1 else s1
    (writeLastSlot x s2, none)

/-- The state after the constructor / after `cleanupLevels` + `initializeLevels`
with base `B`: no element, every level empty. -/
def emptyWithB {α : Type} (B : Nat) : RA α :=
  { N := 0, B := B, levels := fun _ => [], n := fun _ => 0, n0 := 0 }

/-- The element capture of `rebuild` (and of the copy operations): read
`get(i)` for `i = start, start+1, ...` (`fuel` reads in total), propagating the
first fault. -/
def captureFrom {α : Type} [Inhabited α] (r : Nat) (s : RA α) : Nat → Nat → Except Fault (List α)
  | _, 0 => .ok []
  | i, fuel+1 =>
    match get r s i with
    | .error e => .error e
    | .ok x =>
      match captureFrom r s (i+1) fuel with
      | .error e => .error e
      | .ok xs => .ok (x :: xs)

/-- Re-insert a buffered element list through the append path, stopping at the
first fault.  In the source the re-insertion calls the full `grow`; its rebuild
guard `N_ == power(B_, R)` is never true during a re-insertion (the element
count stays strictly below the new capacity), so the loop is the fold of the
post-guard body `growCore` (theorem `grow_eq_growCore` makes the agreement
precise). -/
def growList {α : Type} (r : Nat) (xs : List α) (start : RA α) : RA α × Option Fault :=
  xs.foldl (fun p x =>
    match p with
    | (t, some e) => (t, some e)
    | (t, none) => growCore r x t) (start, none)

/-- `ResizableArray::rebuild(newB)`: buffer all elements via `get`, tear the
levels down, restart with base `newB` and re-append everything. -/
def rebuild (α : Type) [Inhabited α] (r newB : Nat) (s : RA α) : RA α × Option Fault :=
  match captureFrom r s 0 s.N with
  | .error e => (s, some e)
  | .ok elems => growList r elems (emptyWithB newB)

/-- `ResizableArray::grow` (append): rebuild to base `2B` when `N_` has reached
`B^r`, then the combine / new-block / write sequence. -/
def grow {α : Type} [Inhabited α] (r : Nat) (x : α) (s : RA α) : RA α × Option Fault :=
  match (if s.N = power s.B r then rebuild α r (2 * s.B) s else (s, none)) with
  | (s1, some e) => (s1, some e)
  | (s1, none) => growCore r x s1

/-- The element-removal tail of `ResizableArray::shrink`: drop the last
constructed element; if the last level-1 block became empty, free it and mark
the new last block full (or record emptiness). -/
def popLastElem {α : Type} (s : RA α) : RA α :=
  let shortBlk := ((s.levels 1).getD (s.n 1 - 1) []).dropLast
  let s1 : RA α :=
    { s with levels := updF s.levels 1 ((s.levels 1).set (s.n 1 - 1) shortBlk),
             n0 := s.n0 - 1, N := s.N - 1 }
  if s1.n0 = 0 then
    let s2 : RA α :=
      { s1 with levels := updF s1.levels 1 (s1.levels 1).dropLast,
                n := updF s1.n 1 (s1.n 1 - 1) }
    if s2.N = 0 ∨ s2.n 1 = 0 then { s2 with n0 := 0 } else { s2 with n0 := s2.B }
  else s1

/-- `ResizableArray::shrink` (pop): guard against emptiness, rebuild to base
`B/2` when `B_ >= 8` and `N_ = (B_/4)^r`, split when level 1 has no block,
then remove the last element. -/
def shrink {α : Type} [Inhabited α] (r : Nat) (s : RA α) : RA α × Option Fault :=
  if s.N = 0 then (s, some .emptyContainer)
  else
    match (if 8 ≤ s.B ∧ s.N = power (s.B / 4) r then rebuild α r (s.B / 2) s else (s, none)) with
    | (s1, some e) => (s1, some e)
    | (s1, none) =>
      match (if s1.n 1 = 0 then splitBlocks r s1 else (s1, none)) with
      | (s2, some e) => (s2, some e)
      | (s2, none) => (popLastElem s2, none)

/-- The copy constructor: fresh empty levels with the source's base `B_`, then
`grow(other.get(i))` for every `i < other.N_` (the re-insertion never meets the
rebuild guard, see `growList`). -/
def copyCtor {α : Type} [Inhabited α] (r : Nat) (other : RA α) : RA α × Option Fault :=
  match captureFrom r other 0 other.N with
  | .error e => ((emptyWithB other.B : RA α), some e)
  | .ok elems => growList r elems (emptyWithB other.B)

/-- A container object as a C++ variable: `some s` when `levels_` and `n_` are
allocated, `none` after a move has nulled them out (the move also sets
`N_ = 0` and `n0_ = 0`, so `length()` reads 0). -/
abbrev Handle (α : Type) := Option (RA α)

/-- Move construction (and move assignment, which leaves the source in the same
state): the target takes the representation, the source keeps null `levels_`
and `n_`.  Returns (target, moved-from source). -/
def moveCtorFrom {α : Type} (h : Handle α) : Handle α × Handle α := (h, (none : Handle α))

/-- `grow` called on a container variable.  On a moved-from object the very
first field access of the append path, `n_[1]`, dereferences the null `n_`. -/
def growH {α : Type} [Inhabited α] (r : Nat) (x : α) : Handle α → Handle α × Option Fault
  | none => ((none : Handle α), some .nullDeref)
  | some s => ((some (grow r x s).1 : Handle α), (grow r x s).2)

/-- The `length()` accessor on a container variable: it only reads `N_`, which
a move sets to 0, so it is safe on moved-from objects. -/
def lenH {α : Type} : Handle α → Nat
  | none => 0
  | some s => s.N

/-- A public mutating operation of the container facade. -/
inductive Op (α : Type) where
  | append (x : α)
  | pop
  | set (i : Nat) (x : α)

/-- Run one public operation (the state component is the object after the call;
for the guard errors the guard precedes every mutation, so it is the pre-call
object). -/
def applyOp {α : Type} [Inhabited α] (r : Nat) (s : RA α) : Op α → RA α × Option Fault
  | .append x => grow r x s
  | .pop => shrink r s
  | .set i x => RArr.set r s i x

/-- The object after one public call (C++ exception semantics: a throwing guard
leaves the object unchanged, and on guard errors `applyOp` indeed returns the
pre-call state). -/
def execOp {α : Type} [Inhabited α] (r : Nat) (s : RA α) (op : Op α) : RA α :=
  (applyOp r s op).1

/-- Run a sequence of public operations on a default-constructed container
(`B_ = INITIAL_B = 4`). -/
def runOps {α : Type} [Inhabited α] (r : Nat) (ops : List (Op α)) : RA α :=
  ops.foldl (execOp r) (emptyWithB 4)

/-- A state is reachable when some public operation sequence produces it from a
default-constructed container. -/
def Reach (α : Type) [Inhabited α] (r : Nat) (s : RA α) : Prop :=
  ∃ ops : List (Op α), runOps r ops = s

/-- Modelled from the spec: the abstract sequence semantics the container
refines.  Append adds at the back; pop removes the last surviving element (and
is a no-op on the empty sequence, whose pop errors without mutating); set
overwrites position `i` (and is a no-op out of range, where set errors without
mutating). -/
def absOp {α : Type} (l : List α) : Op α → List α
  | .append x => l ++ [x]
  | .pop => l.dropLast
  | .set i x => l.set i x

/-- Modelled from the spec: the abstract element sequence after a sequence of
public operations from the empty container. -/
def absRun {α : Type} (ops : List (Op α)) : List α := ops.foldl absOp []

/-- Concatenation of the blocks of levels `lvl, lvl-1, ..., 2` in the order the
read path consumes them. -/
def bigConcat {α : Type} (s : RA α) : Nat → List α
  | 0 => []
  | 1 => []
  | lvl+2 => (s.levels (lvl+2)).flatten ++ bigConcat s (lvl+1)

/-- The logical element sequence held by the container: levels `r-1 .. 2`
first, then level 1 (invariant I7 of the specification). -/
def repList {α : Type} (r : Nat) (s : RA α) : List α :=
  bigConcat s (r-1) ++ (s.levels 1).flatten

/-- Total allocated element capacity of levels `1 .. m`: every block residing
at level `k` was allocated with capacity `B^k`. -/
def capUpTo {α : Type} (s : RA α) : Nat → Nat
  | 0 => 0
  | k+1 => capUpTo s k + (s.levels (k+1)).length * s.B ^ (k+1)

/-- Total allocated element capacity of the container (levels `1 .. r-1`). -/
def allocCap {α : Type} (r : Nat) (s : RA α) : Nat := capUpTo s (r - 1)

/-- Structural representation invariant (holds at rest, and also at every
intermediate state of a rebuild re-insertion, which is why the size window
conditions I5/I6 are kept separate in `Inv`). -/
structure SInv (r : Nat) {α : Type} (s : RA α) : Prop where
  hr : 2 ≤ r
  hBform : ∃ m, s.B = 4 * 2 ^ m
  hlen : ∀ k, (s.levels k).length = s.n k
  hout : ∀ k, k = 0 ∨ r ≤ k → s.n k = 0
  hbig : ∀ k, 2 ≤ k → k < r → ∀ j, j < s.n k → ((s.levels k).getD j []).length = s.B ^ k
  hlvl1 : (s.n 1 = 0 ∧ s.n0 = 0) ∨
    (1 ≤ s.n0 ∧ s.n0 ≤ s.B ∧ 1 ≤ s.n 1 ∧
      ∀ j, j < s.n 1 →
        ((s.levels 1).getD j []).length = if j + 1 = s.n 1 then s.n0 else s.B)
  hnle : ∀ k, 1 ≤ k → k < r → s.n k ≤ 2 * s.B
  hN : s.N = (repList r s).length

/-- Full representation invariant of states at rest (between public calls). -/
structure Inv (r : Nat) {α : Type} (s : RA α) extends SInv r s : Prop where
  hNle : s.N ≤ s.B ^ r
  hNge : 8 ≤ s.B → (s.B / 4) ^ r ≤ s.N

/-- Concatenation of the blocks of levels `m, m-1, ..., 1` (an alternative
bottom-up view of the logical sequence, used by the restructuring proofs). -/
def concatDown {α : Type} (s : RA α) : Nat → List α
  | 0 => []
  | m+1 => (s.levels (m+1)).flatten ++ concatDown s m

/-! ### Basic facts about the helpers -/

@[simp] theorem updF_same {β : Type} (f : Nat → β) (k : Nat) (v : β) :
    updF f k v k = v := by
  simp [updF]

theorem updF_ne {β : Type} (f : Nat → β) {j k : Nat} (v : β) (h : j ≠ k) :
    updF f k v j = f j := by
  simp [updF, h]

theorem powerLoop_eq : ∀ fuel expo, expo ≤ fuel → ∀ base result : Nat,
    powerLoop fuel base expo result = result * base ^ expo := by
  intro fuel
  induction fuel with
  | zero =>
    intro expo hle base result
    have h0 : expo = 0 := by omega
    subst h0
    simp [powerLoop]
  | succ fuel ih =>
    intro expo hle base result
    by_cases h : expo = 0
    · subst h; simp [powerLoop]
    · rw [powerLoop, if_neg h, ih (expo / 2) (by omega) (base * base)]
      have he : 2 * (expo / 2) + expo % 2 = expo := Nat.div_add_mod expo 2
      have hpow : base ^ expo = (base * base) ^ (expo / 2) * base ^ (expo % 2) := by
        conv_lhs => rw [← he]
        rw [pow_add, pow_mul, pow_two]
      rcases Nat.mod_two_eq_zero_or_one expo with h2 | h2 <;>
        simp [h2, hpow, mul_assoc, mul_comm, mul_left_comm]

theorem power_eq (b e : Nat) : power b e = b ^ e := by
  rw [power, powerLoop_eq e e (le_refl e), one_mul]

end RArr

namespace RArr

/-! ### Generic list facts used by the indexing map -/

theorem getD_append_left {α : Type} (l₁ l₂ : List α) (d : α) {j : Nat} (h : j < l₁.length) :
    (l₁ ++ l₂).getD j d = l₁.getD j d := by
  simp [List.getD_eq_getElem?_getD, List.getElem?_append_left h]

theorem getD_append_right {α : Type} (l₁ l₂ : List α) (d : α) {j : Nat} (h : l₁.length ≤ j) :
    (l₁ ++ l₂).getD j d = l₂.getD (j - l₁.length) d := by
  simp [List.getD_eq_getElem?_getD, List.getElem?_append_right h]

theorem getD_take_of_lt {α : Type} (l : List α) (d : α) {m j : Nat} (h : j < m) :
    (l.take m).getD j d = l.getD j d := by
  simp [List.getD_eq_getElem?_getD, List.getElem?_take_of_lt h]

theorem getD_set_self {α : Type} (l : List α) {b : Nat} (y : α) (d : α) (h : b < l.length) :
    (l.set b y).getD b d = y := by
  simp [List.getD_eq_getElem?_getD, List.getElem?_set_self h]

theorem getD_set_ne {α : Type} (l : List α) {b j : Nat} (y : α) (d : α) (h : j ≠ b) :
    (l.set b y).getD j d = l.getD j d := by
  simp [List.getD_eq_getElem?_getD, List.getElem?_set_ne (Ne.symm h)]

theorem take_concat_getD {α : Type} (d : α) :
    ∀ l : List α, 0 < l.length → l.take (l.length - 1) ++ [l.getD (l.length - 1) d] = l := by
  intro l
  induction l with
  | nil => intro h; simp at h
  | cons a l ih =>
    intro _
    cases l with
    | nil => simp
    | cons b l' =>
      have := ih (by simp)
      simpa [List.length_cons, Nat.succ_sub_one] using congrArg (List.cons a) this

theorem flatten_length_uniform {α : Type} (L : Nat) :
    ∀ bs : List (List α), (∀ j, j < bs.length → (bs.getD j []).length = L) →
      bs.flatten.length = bs.length * L := by
  intro bs
  induction bs with
  | nil => simp
  | cons b bs ih =>
    intro h
    have hb : b.length = L := by simpa using h 0 (by simp)
    have ht : ∀ j, j < bs.length → (bs.getD j []).length = L := by
      intro j hj
      simpa using h (j+1) (by simpa using hj)
    simp [hb, ih ht, Nat.succ_mul, Nat.add_comm]

theorem flatten_getD_uniform {α : Type} (L : Nat) (hL : 0 < L) (d : α) :
    ∀ bs : List (List α), (∀ j, j < bs.length → (bs.getD j []).length = L) →
      ∀ x, x < bs.length * L →
        bs.flatten.getD x d = (bs.getD (x / L) []).getD (x % L) d := by
  intro bs
  induction bs with
  | nil => intro _ x hx; simp at hx
  | cons b bs ih =>
    intro h x hx
    have hb : b.length = L := by simpa using h 0 (by simp)
    have ht : ∀ j, j < bs.length → (bs.getD j []).length = L := by
      intro j hj
      simpa using h (j+1) (by simpa using hj)
    by_cases hxL : x < L
    · rw [List.flatten_cons, getD_append_left _ _ _ (by rw [hb]; exact hxL),
        Nat.div_eq_of_lt hxL, Nat.mod_eq_of_lt hxL]
      simp
    · push_neg at hxL
      have hx' : x - L < bs.length * L := by
        rw [List.length_cons, Nat.succ_mul] at hx
        omega
      rw [List.flatten_cons, getD_append_right _ _ _ (by rw [hb]; exact hxL), hb,
        ih ht (x - L) hx']
      have hxeq : x = (x - L) + L := (Nat.sub_add_cancel hxL).symm
      have hdiv : x / L = (x - L) / L + 1 := by
        conv_lhs => rw [hxeq]
        rw [Nat.add_div_right _ hL]
      have hmod : x % L = (x - L) % L := by
        conv_lhs => rw [hxeq]
        rw [Nat.add_mod_right]
      rw [hdiv, hmod]
      simp

theorem flatten_set_uniform {α : Type} (L : Nat) (hL : 0 < L) (v : α) :
    ∀ bs : List (List α), (∀ j, j < bs.length → (bs.getD j []).length = L) →
      ∀ x, x < bs.length * L →
        (bs.set (x / L) ((bs.getD (x / L) []).set (x % L) v)).flatten
          = bs.flatten.set x v := by
  intro bs
  induction bs with
  | nil => intro _ x hx; simp at hx
  | cons b bs ih =>
    intro h x hx
    have hb : b.length = L := by simpa using h 0 (by simp)
    have ht : ∀ j, j < bs.length → (bs.getD j []).length = L := by
      intro j hj
      simpa using h (j+1) (by simpa using hj)
    by_cases hxL : x < L
    · rw [Nat.div_eq_of_lt hxL, Nat.mod_eq_of_lt hxL]
      simp only [List.getD_cons_zero, List.set_cons_zero, List.flatten_cons]
      rw [List.set_append_left _ _ (by rw [hb]; exact hxL)]
    · push_neg at hxL
      have hx' : x - L < bs.length * L := by
        rw [List.length_cons, Nat.succ_mul] at hx
        omega
      have hxeq : x = (x - L) + L := (Nat.sub_add_cancel hxL).symm
      have hdiv : x / L = (x - L) / L + 1 := by
        conv_lhs => rw [hxeq]
        rw [Nat.add_div_right _ hL]
      have hmod : x % L = (x - L) % L := by
        conv_lhs => rw [hxeq]
        rw [Nat.add_mod_right]
      rw [hdiv, hmod]
      simp only [List.getD_cons_succ, List.set_cons_succ, List.flatten_cons]
      rw [ih ht (x - L) hx', List.set_append_right _ _ (by rw [hb]; exact hxL), hb]

end RArr

namespace RArr

/-! ### Consequences of the structural invariant -/

theorem SInv.hB4 {r : Nat} {α : Type} {s : RA α} (hs : SInv r s) : 4 ≤ s.B := by
  obtain ⟨m, hm⟩ := hs.hBform
  have : (1 : Nat) ≤ 2 ^ m := Nat.one_le_two_pow
  omega

theorem SInv.hBpos {r : Nat} {α : Type} {s : RA α} (hs : SInv r s) : 0 < s.B := by
  have := hs.hB4; omega

theorem SInv.hBpowpos {r : Nat} {α : Type} {s : RA α} (hs : SInv r s) (k : Nat) :
    0 < s.B ^ k :=
  Nat.pos_pow_of_pos k hs.hBpos

/-- Uniform block length at a big level, stated on the block list itself. -/
theorem SInv.big_uniform {r : Nat} {α : Type} {s : RA α} (hs : SInv r s) {k : Nat}
    (h2 : 2 ≤ k) (hk : k < r) :
    ∀ j, j < (s.levels k).length → ((s.levels k).getD j []).length = s.B ^ k := by
  intro j hj
  exact hs.hbig k h2 hk j (by rw [← hs.hlen k]; exact hj)

theorem SInv.flatten_big_length {r : Nat} {α : Type} {s : RA α} (hs : SInv r s) {k : Nat}
    (h2 : 2 ≤ k) (hk : k < r) :
    ((s.levels k).flatten).length = s.n k * s.B ^ k := by
  rw [flatten_length_uniform (s.B ^ k) _ (hs.big_uniform h2 hk), hs.hlen k]

/-- Length of the level-1 content. -/
theorem SInv.flatten_lvl1_length {r : Nat} {α : Type} {s : RA α} (hs : SInv r s) :
    ((s.levels 1).flatten).length
      = (if s.n 1 = 0 then 0 else (s.n 1 - 1) * s.B + s.n0) := by
  rcases hs.hlvl1 with ⟨h0, -⟩ | ⟨-, -, h1, hlens⟩
  · have : (s.levels 1).length = 0 := by rw [hs.hlen 1, h0]
    rw [List.length_eq_zero.mp this]
    simp [h0]
  · have hlen1 : (s.levels 1).length = s.n 1 := hs.hlen 1
    have hn1 : ¬ s.n 1 = 0 := by omega
    have hdec := take_concat_getD ([] : List α) (s.levels 1) (by omega)
    rw [hlen1] at hdec
    have htakelen : ((s.levels 1).take (s.n 1 - 1)).length = s.n 1 - 1 := by
      rw [List.length_take, hlen1]
      exact min_eq_left (by omega)
    have huni : ∀ j, j < ((s.levels 1).take (s.n 1 - 1)).length →
        (((s.levels 1).take (s.n 1 - 1)).getD j []).length = s.B := by
      intro j hj
      rw [htakelen] at hj
      rw [getD_take_of_lt _ _ (by omega)]
      have := hlens j (by omega)
      rwa [if_neg (by omega)] at this
    have hlast : ((s.levels 1).getD (s.n 1 - 1) []).length = s.n0 := by
      have := hlens (s.n 1 - 1) (by omega)
      rwa [if_pos (by omega)] at this
    conv_lhs => rw [← hdec]
    rw [List.flatten_concat, List.length_append,
      flatten_length_uniform s.B _ huni, htakelen, hlast, if_neg hn1]

/-- Read correctness at level 1. -/
theorem getLevel1_spec {α : Type} [Inhabited α] {r : Nat} {s : RA α} (hs : SInv r s) :
    ∀ x, x < ((s.levels 1).flatten).length →
      getLevel1 s x = .ok (((s.levels 1).flatten).getD x default) := by
  intro x hx
  rcases hs.hlvl1 with ⟨h0, -⟩ | ⟨hn0, -, h1, hlens⟩
  · rw [hs.flatten_lvl1_length] at hx
    simp [h0] at hx
  · have hn1 : ¬ s.n 1 = 0 := by omega
    have hlen1 : (s.levels 1).length = s.n 1 := hs.hlen 1
    have hBpos := hs.hBpos
    rw [hs.flatten_lvl1_length, if_neg hn1] at hx
    have hdec := take_concat_getD ([] : List α) (s.levels 1) (by omega)
    rw [hlen1] at hdec
    have htakelen : ((s.levels 1).take (s.n 1 - 1)).length = s.n 1 - 1 := by
      simp [hlen1]
    have htakeuni : ∀ j, j < ((s.levels 1).take (s.n 1 - 1)).length →
        (((s.levels 1).take (s.n 1 - 1)).getD j []).length = s.B := by
      intro j hj
      rw [htakelen] at hj
      rw [getD_take_of_lt _ _ (by omega)]
      have := hlens j (by omega)
      simpa [show ¬ (j + 1 = s.n 1) by omega] using this
    have hfrontlen : (((s.levels 1).take (s.n 1 - 1)).flatten).length = (s.n 1 - 1) * s.B := by
      rw [flatten_length_uniform s.B _ htakeuni, htakelen]
    rw [getLevel1, if_neg hn1]
    by_cases hfull : x < (s.n 1 - 1) * s.B
    · rw [if_pos hfull]
      have hdivlt : x / s.B < s.n 1 - 1 := Nat.div_lt_of_lt_mul (by rw [Nat.mul_comm]; exact hfull)
      conv_rhs => rw [← hdec]
      rw [List.flatten_concat, getD_append_left _ _ _ (by rw [hfrontlen]; exact hfull),
        flatten_getD_uniform s.B hBpos _ _ htakeuni x (by rw [htakelen]; exact hfull),
        getD_take_of_lt _ _ hdivlt]
    · rw [if_neg hfull]
      push_neg at hfull
      have hxlast : x - (s.n 1 - 1) * s.B < s.n0 := by omega
      rw [if_neg (by omega)]
      conv_rhs => rw [← hdec]
      rw [List.flatten_concat, getD_append_right _ _ _ (by rw [hfrontlen]; exact hfull),
        hfrontlen]

/-- Read correctness of the level walk: below level `lvl+1` the container holds
the suffix `bigConcat s lvl ++ level-1 content` of the logical sequence. -/
theorem getBig_spec {α : Type} [Inhabited α] {r : Nat} {s : RA α} (hs : SInv r s) :
    ∀ lvl, lvl < r → ∀ x, x < (bigConcat s lvl ++ (s.levels 1).flatten).length →
      getBig s lvl x = .ok ((bigConcat s lvl ++ (s.levels 1).flatten).getD x default) := by
  intro lvl
  induction lvl with
  | zero =>
    intro _ x hx
    rw [bigConcat] at hx ⊢
    rw [List.nil_append] at hx
    rw [List.nil_append]
    exact getLevel1_spec hs x hx
  | succ lvl ih =>
    match lvl, ih with
    | 0, _ =>
      intro _ x hx
      rw [bigConcat] at hx ⊢
      rw [List.nil_append] at hx
      rw [List.nil_append]
      exact getLevel1_spec hs x hx
    | lvl+1, ih =>
      intro hlt x hx
      have h2 : 2 ≤ lvl + 2 := by omega
      have hkr : lvl + 2 < r := hlt
      have hflatlen := hs.flatten_big_length h2 hkr
      have hlenk : (s.levels (lvl+2)).length = s.n (lvl+2) := hs.hlen (lvl+2)
      rw [bigConcat, List.append_assoc] at hx ⊢
      rw [getBig, power_eq]
      by_cases hxl : x < s.n (lvl+2) * s.B ^ (lvl+2)
      · rw [if_pos hxl, getD_append_left _ _ _ (by rw [hflatlen]; exact hxl),
          flatten_getD_uniform (s.B ^ (lvl+2)) (hs.hBpowpos _) _ _
            (hs.big_uniform h2 hkr) x (by rw [hlenk]; exact hxl)]
      · rw [if_neg hxl]
        push_neg at hxl
        rw [List.length_append, hflatlen] at hx
        rw [getD_append_right _ _ _ (by rw [hflatlen]; exact hxl), hflatlen]
        exact ih (by omega) _ (by omega)

/-- In-range read correctness: `get` returns the element of the logical
sequence (invariant I7 and property P2 of the specification). -/
theorem get_spec {α : Type} [Inhabited α] {r : Nat} {s : RA α} (hs : SInv r s) {i : Nat}
    (hi : i < s.N) :
    get r s i = .ok ((repList r s).getD i default) := by
  have hx : i < (bigConcat s (r-1) ++ (s.levels 1).flatten).length := by
    rw [← repList]
    rw [hs.hN] at hi
    exact hi
  rw [get, if_neg (by omega), repList]
  exact getBig_spec hs (r-1) (by have := hs.hr; omega) i hx

/-- Out-of-range reads fail with the index error before touching anything. -/
theorem get_oob {α : Type} [Inhabited α] (r : Nat) (s : RA α) {i : Nat} (hi : s.N ≤ i) :
    get r s i = .error .indexOutOfRange := by
  rw [get, if_pos hi]

end RArr

namespace RArr

/-! ### Write-path correctness (`set`) -/

@[simp] theorem writeBlock_N {α : Type} (s : RA α) (lvl b off : Nat) (v : α) :
    (writeBlock s lvl b off v).N = s.N := rfl

@[simp] theorem writeBlock_B {α : Type} (s : RA α) (lvl b off : Nat) (v : α) :
    (writeBlock s lvl b off v).B = s.B := rfl

@[simp] theorem writeBlock_n {α : Type} (s : RA α) (lvl b off : Nat) (v : α) :
    (writeBlock s lvl b off v).n = s.n := rfl

@[simp] theorem writeBlock_n0 {α : Type} (s : RA α) (lvl b off : Nat) (v : α) :
    (writeBlock s lvl b off v).n0 = s.n0 := rfl

theorem writeBlock_levels_ne {α : Type} (s : RA α) (lvl b off : Nat) (v : α) {k : Nat}
    (h : k ≠ lvl) :
    (writeBlock s lvl b off v).levels k = s.levels k := by
  simp [writeBlock, updF_ne _ _ h]

theorem writeBlock_levels_self {α : Type} (s : RA α) (lvl b off : Nat) (v : α) :
    (writeBlock s lvl b off v).levels lvl
      = (s.levels lvl).set b (((s.levels lvl).getD b []).set off v) := by
  simp [writeBlock]

theorem writeBlock_length {α : Type} (s : RA α) (lvl b off : Nat) (v : α) (k : Nat) :
    ((writeBlock s lvl b off v).levels k).length = ((s.levels k).length) := by
  by_cases h : k = lvl
  · subst h; rw [writeBlock_levels_self]; simp
  · rw [writeBlock_levels_ne _ _ _ _ _ h]

theorem writeBlock_getD_length {α : Type} (s : RA α) (lvl b off : Nat) (v : α)
    (k j : Nat) :
    (((writeBlock s lvl b off v).levels k).getD j []).length
      = (((s.levels k).getD j []).length) := by
  by_cases h : k = lvl
  · subst h
    rw [writeBlock_levels_self]
    by_cases hb : b < (s.levels k).length
    · by_cases hj : j = b
      · subst hj; rw [getD_set_self _ _ _ hb]; simp
      · rw [getD_set_ne _ _ _ hj]
    · rw [List.set_eq_of_length_le (by omega)]
  · rw [writeBlock_levels_ne _ _ _ _ _ h]

theorem bigConcat_congr {α : Type} {s t : RA α} :
    ∀ lvl, (∀ k, 2 ≤ k → k ≤ lvl → t.levels k = s.levels k) →
      bigConcat t lvl = bigConcat s lvl := by
  intro lvl
  induction lvl with
  | zero => intro _; rfl
  | succ lvl ih =>
    match lvl, ih with
    | 0, _ => intro _; rfl
    | lvl+1, ih =>
      intro h
      rw [bigConcat, bigConcat, h (lvl+2) (by omega) (by omega),
        ih (fun k h2 hk => h k h2 (by omega))]

theorem setLevel1_spec {α : Type} {r : Nat} {s : RA α} (hs : SInv r s) (v : α) {x : Nat}
    (hx : x < ((s.levels 1).flatten).length) :
    ∃ t, setLevel1 s x v = (t, none) ∧
      t.N = s.N ∧ t.B = s.B ∧ t.n = s.n ∧ t.n0 = s.n0 ∧
      (∀ k, k ≠ 1 → t.levels k = s.levels k) ∧
      (∀ k, (t.levels k).length = (s.levels k).length) ∧
      (∀ k j, ((t.levels k).getD j []).length = ((s.levels k).getD j []).length) ∧
      (t.levels 1).flatten = (s.levels 1).flatten.set x v := by
  rcases hs.hlvl1 with ⟨h0, -⟩ | ⟨hn0, -, h1, hlens⟩
  · rw [hs.flatten_lvl1_length] at hx
    simp [h0] at hx
  · have hn1 : ¬ s.n 1 = 0 := by omega
    have hlen1 : (s.levels 1).length = s.n 1 := hs.hlen 1
    have hBpos := hs.hBpos
    rw [hs.flatten_lvl1_length, if_neg hn1] at hx
    have hdec := take_concat_getD ([] : List α) (s.levels 1) (by omega)
    rw [hlen1] at hdec
    have htakelen : ((s.levels 1).take (s.n 1 - 1)).length = s.n 1 - 1 := by
      rw [List.length_take, hlen1]
      exact min_eq_left (by omega)
    have huni : ∀ j, j < ((s.levels 1).take (s.n 1 - 1)).length →
        (((s.levels 1).take (s.n 1 - 1)).getD j []).length = s.B := by
      intro j hj
      rw [htakelen] at hj
      rw [getD_take_of_lt _ _ (by omega)]
      have := hlens j (by omega)
      rwa [if_neg (by omega)] at this
    have hfrontlen : (((s.levels 1).take (s.n 1 - 1)).flatten).length = (s.n 1 - 1) * s.B := by
      rw [flatten_length_uniform s.B _ huni, htakelen]
    have hlast : ((s.levels 1).getD (s.n 1 - 1) []).length = s.n0 := by
      have := hlens (s.n 1 - 1) (by omega)
      rwa [if_pos (by omega)] at this
    by_cases hfull : x < (s.n 1 - 1) * s.B
    · refine ⟨writeBlock s 1 (x / s.B) (x % s.B) v, ?_, rfl, rfl, rfl, rfl,
        (fun k hk => writeBlock_levels_ne _ _ _ _ _ hk),
        (fun k => writeBlock_length _ _ _ _ _ k),
        (fun k j => writeBlock_getD_length _ _ _ _ _ k j), ?_⟩
      · rw [setLevel1, if_neg hn1, if_pos hfull]
      · have hdivlt : x / s.B < s.n 1 - 1 :=
          Nat.div_lt_of_lt_mul (by rw [Nat.mul_comm]; exact hfull)
        rw [writeBlock_levels_self]
        conv_lhs => rw [← hdec]
        conv_rhs => rw [← hdec]
        rw [List.set_append_left _ _ (by rw [htakelen]; exact hdivlt),
          List.flatten_concat, List.flatten_concat,
          List.set_append_left _ _ (by rw [hfrontlen]; exact hfull)]
        congr 1
        rw [getD_append_left _ _ _ (by rw [htakelen]; exact hdivlt)]
        exact flatten_set_uniform s.B hBpos v _ huni x (by rw [htakelen]; exact hfull)
    · push_neg at hfull
      have hxlast : x - (s.n 1 - 1) * s.B < s.n0 := by omega
      refine ⟨writeBlock s 1 (s.n 1 - 1) (x - (s.n 1 - 1) * s.B) v, ?_, rfl, rfl, rfl, rfl,
        (fun k hk => writeBlock_levels_ne _ _ _ _ _ hk),
        (fun k => writeBlock_length _ _ _ _ _ k),
        (fun k j => writeBlock_getD_length _ _ _ _ _ k j), ?_⟩
      · rw [setLevel1, if_neg hn1, if_neg (by omega), if_neg (by omega)]
      · rw [writeBlock_levels_self]
        conv_lhs => rw [← hdec]
        conv_rhs => rw [← hdec]
        rw [List.set_append_right _ _ (le_of_eq htakelen), htakelen, Nat.sub_self,
          List.set_cons_zero, List.flatten_concat, List.flatten_concat,
          List.set_append_right _ _ (by rw [hfrontlen]; exact hfull), hfrontlen]
        congr 1
        rw [getD_append_right _ _ _ (le_of_eq htakelen), htakelen, Nat.sub_self]
        rfl

end RArr

namespace RArr

theorem setBig_spec {α : Type} {r : Nat} {s : RA α} (hs : SInv r s) :
    ∀ lvl, lvl < r → ∀ x v, x < (bigConcat s lvl ++ (s.levels 1).flatten).length →
      ∃ t, setBig s lvl x v = (t, none) ∧
        t.N = s.N ∧ t.B = s.B ∧ t.n = s.n ∧ t.n0 = s.n0 ∧
        (∀ k, (t.levels k).length = (s.levels k).length) ∧
        (∀ k j, ((t.levels k).getD j []).length = ((s.levels k).getD j []).length) ∧
        (∀ k, 2 ≤ k → lvl < k → t.levels k = s.levels k) ∧
        bigConcat t lvl ++ (t.levels 1).flatten
          = (bigConcat s lvl ++ (s.levels 1).flatten).set x v := by
  intro lvl
  induction lvl with
  | zero =>
    intro _ x v hx
    rw [bigConcat, List.nil_append] at hx
    obtain ⟨t, heq, hN, hB, hn, hn0, hk1, hlen, hgd, hflat⟩ := setLevel1_spec hs v hx
    refine ⟨t, heq, hN, hB, hn, hn0, hlen, hgd, (fun k h2 _ => hk1 k (by omega)), ?_⟩
    simp only [bigConcat, List.nil_append]
    exact hflat
  | succ lvl ih =>
    match lvl, ih with
    | 0, _ =>
      intro _ x v hx
      rw [bigConcat, List.nil_append] at hx
      obtain ⟨t, heq, hN, hB, hn, hn0, hk1, hlen, hgd, hflat⟩ := setLevel1_spec hs v hx
      refine ⟨t, heq, hN, hB, hn, hn0, hlen, hgd, (fun k h2 _ => hk1 k (by omega)), ?_⟩
      simp only [bigConcat, List.nil_append]
      exact hflat
    | lvl+1, ih =>
      intro hlt x v hx
      have h2 : 2 ≤ lvl + 2 := by omega
      have hkr : lvl + 2 < r := hlt
      have hflatlen := hs.flatten_big_length h2 hkr
      have hlenk : (s.levels (lvl+2)).length = s.n (lvl+2) := hs.hlen (lvl+2)
      rw [bigConcat, List.append_assoc] at hx ⊢
      rw [setBig, power_eq]
      by_cases hxl : x < s.n (lvl+2) * s.B ^ (lvl+2)
      · rw [if_pos hxl]
        set b := x / s.B ^ (lvl+2) with hbdef
        set off := x % s.B ^ (lvl+2) with hoffdef
        refine ⟨writeBlock s (lvl+2) b off v, rfl, rfl, rfl, rfl, rfl,
          (fun k => writeBlock_length _ _ _ _ _ k),
          (fun k j => writeBlock_getD_length _ _ _ _ _ k j),
          (fun k hk2 hkgt => writeBlock_levels_ne _ _ _ _ _ (by omega)), ?_⟩
        rw [bigConcat, List.append_assoc]
        have hlv1 : (writeBlock s (lvl+2) b off v).levels 1 = s.levels 1 :=
          writeBlock_levels_ne _ _ _ _ _ (by omega)
        have hrest : bigConcat (writeBlock s (lvl+2) b off v) (lvl+1)
            = bigConcat s (lvl+1) := by
          exact bigConcat_congr _ (fun k hk2 hklt =>
            writeBlock_levels_ne _ _ _ _ _ (by omega))
        rw [hlv1, hrest, writeBlock_levels_self,
          List.set_append_left _ _ (by rw [hflatlen]; exact hxl)]
        congr 1
        exact flatten_set_uniform (s.B ^ (lvl+2)) (hs.hBpowpos _) v _
          (hs.big_uniform h2 hkr) x (by rw [hlenk]; exact hxl)
      · rw [if_neg hxl]
        push_neg at hxl
        rw [List.length_append, hflatlen] at hx
        obtain ⟨t, heq, hN, hB, hn, hn0, hlen, hgd, huntouched, hflat⟩ :=
          ih (by omega) (x - s.n (lvl+2) * s.B ^ (lvl+2)) v (by omega)
        refine ⟨t, heq, hN, hB, hn, hn0, hlen, hgd,
          (fun k hk2 hkgt => huntouched k hk2 (by omega)), ?_⟩
        have hlen_le : ((s.levels (lvl+2)).flatten).length ≤ x := by
          rw [hflatlen]; exact hxl
        rw [bigConcat, List.append_assoc, hflat,
          huntouched (lvl+2) h2 (by omega),
          List.set_append_right _ _ hlen_le, hflatlen]

/-- In-range write correctness: `set` succeeds and replaces exactly position
`index` of the logical sequence, leaving the counters and the block geometry
unchanged. -/
theorem set_spec {α : Type} {r : Nat} {s : RA α} (hs : SInv r s) {i : Nat}
    (hi : i < s.N) (v : α) :
    ∃ t, set r s i v = (t, none) ∧
      t.N = s.N ∧ t.B = s.B ∧ t.n = s.n ∧ t.n0 = s.n0 ∧ SInv r t ∧
      repList r t = (repList r s).set i v := by
  have hx : i < (bigConcat s (r-1) ++ (s.levels 1).flatten).length := by
    rw [← repList]
    rw [hs.hN] at hi
    exact hi
  obtain ⟨t, heq, hN, hB, hn, hn0, hlen, hgd, -, hflat⟩ :=
    setBig_spec hs (r-1) (by have := hs.hr; omega) i v hx
  have hrep : repList r t = (repList r s).set i v := by
    rw [repList, repList, ← hflat]
  refine ⟨t, ?_, hN, hB, hn, hn0, ?_, hrep⟩
  · rw [set, if_neg (by omega)]
    exact heq
  · exact
      { hr := hs.hr
        hBform := hB ▸ hs.hBform
        hlen := fun k => by rw [hlen k, hn, hs.hlen k]
        hout := fun k hk => by rw [hn]; exact hs.hout k hk
        hbig := fun k h2 hk j hj => by
          rw [hgd k j, hB]
          exact hs.hbig k h2 hk j (by rw [hn] at hj; exact hj)
        hlvl1 := by
          rw [hn, hn0]
          rcases hs.hlvl1 with h | ⟨ha, hb2, hc, hd⟩
          · exact Or.inl h
          · exact Or.inr ⟨ha, hB ▸ hb2, hc, fun j hj => by
              rw [hgd 1 j, hB]
              exact hd j hj⟩
        hnle := fun k h1 hk => by rw [hn, hB]; exact hs.hnle k h1 hk
        hN := by rw [hN, hrep, List.length_set, hs.hN] }

end RArr

namespace RArr

/-! ### The combine step -/

theorem getD_drop {α : Type} (l : List α) (d : α) (m j : Nat) :
    (l.drop m).getD j d = l.getD (m + j) d := by
  simp [List.getD_eq_getElem?_getD, List.getElem?_drop]

theorem scanLt_some_spec (n : Nat → Nat) (bound : Nat) :
    ∀ fuel i k, scanLt n bound i fuel = some k →
      i ≤ k ∧ k < i + fuel ∧ n k < bound ∧ ∀ j, i ≤ j → j < k → bound ≤ n j := by
  intro fuel
  induction fuel with
  | zero => intro i k h; simp [scanLt] at h
  | succ fuel ih =>
    intro i k h
    rw [scanLt] at h
    by_cases hc : n i < bound
    · rw [if_pos hc] at h
      obtain rfl : i = k := Option.some.inj h
      exact ⟨le_refl _, by omega, hc, fun j h1 h2 => by omega⟩
    · rw [if_neg hc] at h
      obtain ⟨h1, h2, h3, h4⟩ := ih (i+1) k h
      refine ⟨by omega, by omega, h3, fun j hj1 hj2 => ?_⟩
      by_cases hji : j = i
      · subst hji; omega
      · exact h4 j (by omega) hj2

theorem scanLt_isSome (n : Nat → Nat) (bound : Nat) :
    ∀ fuel i, (∃ k, i ≤ k ∧ k < i + fuel ∧ n k < bound) →
      ∃ k, scanLt n bound i fuel = some k := by
  intro fuel
  induction fuel with
  | zero =>
    intro i h
    obtain ⟨k, h1, h2, -⟩ := h
    omega
  | succ fuel ih =>
    intro i h
    obtain ⟨k, h1, h2, h3⟩ := h
    rw [scanLt]
    by_cases hc : n i < bound
    · exact ⟨i, by rw [if_pos hc]⟩
    · rw [if_neg hc]
      apply ih (i+1)
      have : k ≠ i := fun heq => hc (heq ▸ h3)
      exact ⟨k, by omega, by omega, h3⟩

theorem concatDown_congr {α : Type} {u v : RA α} :
    ∀ m, (∀ k, 1 ≤ k → k ≤ m → v.levels k = u.levels k) →
      concatDown v m = concatDown u m := by
  intro m
  induction m with
  | zero => intro _; rfl
  | succ m ih =>
    intro h
    rw [concatDown, concatDown, h (m+1) (by omega) (by omega),
      ih (fun k h1 h2 => h k h1 (by omega))]

theorem bigConcat_concatDown {α : Type} (s : RA α) :
    ∀ lvl, 1 ≤ lvl → bigConcat s lvl ++ (s.levels 1).flatten = concatDown s lvl := by
  intro lvl
  induction lvl with
  | zero => intro h; omega
  | succ lvl ih =>
    intro _
    match lvl, ih with
    | 0, _ => simp [bigConcat, concatDown]
    | lvl+1, ih =>
      rw [bigConcat, concatDown, List.append_assoc, ih (by omega)]

theorem repList_eq_of_agree {α : Type} {u v : RA α} {m : Nat} (hm : 1 ≤ m)
    (hhigh : ∀ k, m < k → v.levels k = u.levels k)
    (hlow : concatDown v m = concatDown u m) :
    ∀ lvl, m ≤ lvl →
      bigConcat v lvl ++ (v.levels 1).flatten
        = bigConcat u lvl ++ (u.levels 1).flatten := by
  intro lvl
  induction lvl with
  | zero => intro h; omega
  | succ lvl ih =>
    intro h
    by_cases heq : m = lvl + 1
    · subst heq
      rw [bigConcat_concatDown v _ hm, bigConcat_concatDown u _ hm, hlow]
    · have hmle : m ≤ lvl := by omega
      obtain ⟨l, rfl⟩ : ∃ l, lvl = l + 1 := ⟨lvl - 1, by omega⟩
      rw [bigConcat, bigConcat, List.append_assoc, List.append_assoc, ih hmle,
        hhigh (l+2) (by omega)]

theorem repList_agree {α : Type} {u v : RA α} {r : Nat} (m : Nat) (hr2 : 2 ≤ r) (hm : 1 ≤ m)
    (hmr : m ≤ r - 1)
    (hhigh : ∀ k, m < k → v.levels k = u.levels k)
    (hlow : concatDown v m = concatDown u m) :
    repList r v = repList r u := by
  rw [repList, repList]
  exact repList_eq_of_agree hm hhigh hlow (r-1) hmr

@[simp] theorem combineStep_N {α : Type} (s : RA α) (i : Nat) :
    (combineStep s i).N = s.N := rfl

@[simp] theorem combineStep_B {α : Type} (s : RA α) (i : Nat) :
    (combineStep s i).B = s.B := rfl

@[simp] theorem combineStep_n0 {α : Type} (s : RA α) (i : Nat) :
    (combineStep s i).n0 = s.n0 := rfl

theorem combineStep_levels_ne {α : Type} (s : RA α) (i : Nat) {k : Nat}
    (h1 : k ≠ i) (h2 : k ≠ i + 1) :
    (combineStep s i).levels k = s.levels k := by
  show (updF (updF s.levels i _) (i+1) _) k = s.levels k
  rw [updF_ne _ _ h2, updF_ne _ _ h1]

theorem combineStep_levels_self {α : Type} (s : RA α) (i : Nat) :
    (combineStep s i).levels i = ((s.levels i).drop s.B).take s.B := by
  show (updF (updF s.levels i _) (i+1) _) i = _
  rw [updF_ne _ _ (by omega), updF_same]

theorem combineStep_levels_succ {α : Type} (s : RA α) (i : Nat) :
    (combineStep s i).levels (i+1)
      = s.levels (i+1)
        ++ [(((s.levels i).take s.B).map (fun blk => blk.take (power s.B i))).flatten] := by
  show (updF (updF s.levels i _) (i+1) _) (i+1) = _
  rw [updF_same]

theorem combineStep_n_ne {α : Type} (s : RA α) (i : Nat) {k : Nat}
    (h1 : k ≠ i) (h2 : k ≠ i + 1) :
    (combineStep s i).n k = s.n k := by
  show (updF (updF s.n i _) (i+1) _) k = s.n k
  rw [updF_ne _ _ h2, updF_ne _ _ h1]

theorem combineStep_n_self {α : Type} (s : RA α) (i : Nat) :
    (combineStep s i).n i = s.B := by
  show (updF (updF s.n i _) (i+1) _) i = _
  rw [updF_ne _ _ (by omega), updF_same]

theorem combineStep_n_succ {α : Type} (s : RA α) (i : Nat) :
    (combineStep s i).n (i+1) = s.n (i+1) + 1 := by
  show (updF (updF s.n i _) (i+1) _) (i+1) = _
  rw [updF_same]

end RArr

namespace RArr

theorem combineStep_spec {α : Type} {r : Nat} {u : RA α} (hs : SInv r u) {i : Nat}
    (hi1 : 1 ≤ i) (hir : i + 1 < r)
    (hni : u.n i = 2 * u.B)
    (htar : u.n (i+1) < 2 * u.B)
    (hn0B : i = 1 → u.n0 = u.B) :
    SInv r (combineStep u i) ∧ (combineStep u i).N = u.N ∧
      (combineStep u i).B = u.B ∧ (combineStep u i).n0 = u.n0 ∧
      repList r (combineStep u i) = repList r u ∧
      (combineStep u i).n i = u.B ∧
      (combineStep u i).n (i+1) = u.n (i+1) + 1 ∧
      (∀ k, k ≠ i → k ≠ i + 1 → (combineStep u i).n k = u.n k) ∧
      (∀ k, k ≠ i → k ≠ i + 1 → (combineStep u i).levels k = u.levels k) := by
  have hB4 := hs.hB4
  have hBpos := hs.hBpos
  have hlen_i : (u.levels i).length = 2 * u.B := by rw [hs.hlen i, hni]
  have huni_i : ∀ j, j < 2 * u.B → ((u.levels i).getD j []).length = u.B ^ i := by
    intro j hj
    by_cases hi2 : 2 ≤ i
    · exact hs.hbig i hi2 (by omega) j (by omega)
    · have hieq : i = 1 := by omega
      subst hieq
      rcases hs.hlvl1 with ⟨h0, -⟩ | ⟨-, -, -, hlens⟩
      · omega
      · have := hlens j (by omega)
        rw [pow_one]
        by_cases hq : j + 1 = u.n 1
        · rw [if_pos hq] at this
          rw [this, hn0B rfl]
        · rw [if_neg hq] at this
          exact this
  have htakelen : ((u.levels i).take u.B).length = u.B := by
    rw [List.length_take, hlen_i]
    exact min_eq_left (by omega)
  have htakeuni : ∀ j, j < ((u.levels i).take u.B).length →
      (((u.levels i).take u.B).getD j []).length = u.B ^ i := by
    intro j hj
    rw [htakelen] at hj
    rw [getD_take_of_lt _ _ hj]
    exact huni_i j (by omega)
  have hmap : ((u.levels i).take u.B).map (fun blk => blk.take (power u.B i))
      = (u.levels i).take u.B := by
    have : ∀ blk ∈ (u.levels i).take u.B, blk.take (power u.B i) = blk := by
      intro blk hblk
      obtain ⟨j, hj, hget⟩ := List.getElem_of_mem hblk
      have hlenblk : blk.length = u.B ^ i := by
        rw [← hget, ← List.getD_eq_getElem ((u.levels i).take u.B) [] hj]
        exact htakeuni j hj
      rw [power_eq]
      exact List.take_of_length_le (le_of_eq hlenblk)
    calc ((u.levels i).take u.B).map (fun blk => blk.take (power u.B i))
        = ((u.levels i).take u.B).map id := List.map_congr_left this
      _ = (u.levels i).take u.B := List.map_id _
  have hbig_eq : (((u.levels i).take u.B).map (fun blk => blk.take (power u.B i))).flatten
      = ((u.levels i).take u.B).flatten := by rw [hmap]
  have hbiglen : (((u.levels i).take u.B).flatten).length = u.B ^ (i+1) := by
    rw [flatten_length_uniform (u.B ^ i) _ htakeuni, htakelen, pow_succ, Nat.mul_comm]
  have hdroplen : ((u.levels i).drop u.B).length = u.B := by
    rw [List.length_drop, hlen_i]
    omega
  have hlvlv_i : (combineStep u i).levels i = (u.levels i).drop u.B := by
    rw [combineStep_levels_self]
    exact List.take_of_length_le (le_of_eq hdroplen)
  have hlendropuni : ∀ j, j < u.B → (((u.levels i).drop u.B).getD j []).length = u.B ^ i := by
    intro j hj
    rw [getD_drop]
    exact huni_i (u.B + j) (by omega)
  have hlenup : (u.levels (i+1)).length = u.n (i+1) := hs.hlen (i+1)
  have hupuni : ∀ j, j < u.n (i+1) → ((u.levels (i+1)).getD j []).length = u.B ^ (i+1) :=
    fun j hj => hs.hbig (i+1) (by omega) (by omega) j hj
  -- the new level i+1 block list
  have hlvlv_succ : (combineStep u i).levels (i+1)
      = u.levels (i+1) ++ [((u.levels i).take u.B).flatten] := by
    rw [combineStep_levels_succ, hbig_eq]
  have hsuccuni : ∀ j, j < u.n (i+1) + 1 →
      (((combineStep u i).levels (i+1)).getD j []).length = u.B ^ (i+1) := by
    intro j hj
    rw [hlvlv_succ]
    by_cases hjn : j < u.n (i+1)
    · rw [getD_append_left _ _ _ (by rw [hlenup]; exact hjn)]
      exact hupuni j hjn
    · have hjeq : j = u.n (i+1) := by omega
      rw [getD_append_right _ _ _ (by rw [hlenup]; omega), hlenup, hjeq, Nat.sub_self]
      exact hbiglen
  -- the logical sequence is preserved
  have hrep : repList r (combineStep u i) = repList r u := by
    obtain ⟨p, rfl⟩ : ∃ p, i = p + 1 := ⟨i - 1, by omega⟩
    refine repList_agree (p+2) hs.hr (by omega) (by omega)
      (fun k hk => combineStep_levels_ne _ _ (by omega) (by omega)) ?_
    rw [concatDown, concatDown, concatDown, concatDown,
      hlvlv_succ, hlvlv_i,
      concatDown_congr p (fun k h1 h2 =>
        combineStep_levels_ne _ _ (by omega) (by omega)),
      List.flatten_concat]
    rw [List.append_assoc]
    congr 1
    rw [← List.append_assoc, ← List.flatten_append, List.take_append_drop]
  refine ⟨?_, rfl, rfl, rfl, hrep,
    combineStep_n_self u i, combineStep_n_succ u i,
    (fun k h1 h2 => combineStep_n_ne u i h1 h2),
    (fun k h1 h2 => combineStep_levels_ne u i h1 h2)⟩
  refine
    { hr := hs.hr
      hBform := hs.hBform
      hlen := ?_
      hout := ?_
      hbig := ?_
      hlvl1 := ?_
      hnle := ?_
      hN := ?_ }
  · intro k
    by_cases hki : k = i
    · subst hki
      rw [hlvlv_i, combineStep_n_self, hdroplen]
    · by_cases hks : k = i + 1
      · subst hks
        rw [hlvlv_succ, combineStep_n_succ, List.length_append, hlenup, List.length_cons,
          List.length_nil]
      · rw [combineStep_levels_ne _ _ hki hks, combineStep_n_ne _ _ hki hks]
        exact hs.hlen k
  · intro k hk
    have hki : k ≠ i := by omega
    have hks : k ≠ i + 1 := by omega
    rw [combineStep_n_ne _ _ hki hks]
    exact hs.hout k hk
  · intro k h2 hkr j hj
    by_cases hki : k = i
    · subst hki
      rw [combineStep_n_self] at hj
      rw [hlvlv_i, combineStep_B]
      exact hlendropuni j hj
    · by_cases hks : k = i + 1
      · subst hks
        rw [combineStep_n_succ] at hj
        rw [combineStep_B]
        exact hsuccuni j hj
      · rw [combineStep_levels_ne _ _ hki hks, combineStep_B,
          combineStep_n_ne _ _ hki hks] at *
        exact hs.hbig k h2 hkr j hj
  · by_cases hieq : i = 1
    · subst hieq
      refine Or.inr ⟨?_, ?_, ?_, ?_⟩
      · rw [combineStep_n0, hn0B rfl]; omega
      · rw [combineStep_n0, combineStep_B]
        rcases hs.hlvl1 with ⟨h0, -⟩ | ⟨-, hle, -, -⟩
        · omega
        · exact hle
      · rw [combineStep_n_self]; omega
      · intro j hj
        rw [combineStep_n_self] at hj
        rw [combineStep_n_self, combineStep_n0, combineStep_B, hlvlv_i, getD_drop]
        have := huni_i (u.B + j) (by omega)
        rw [pow_one] at this
        rw [this, hn0B rfl]
        simp
    · have h1i : (1 : Nat) ≠ i := fun h => hieq h.symm
      have h1s : (1 : Nat) ≠ i + 1 := by omega
      rw [combineStep_n_ne _ _ h1i h1s, combineStep_levels_ne _ _ h1i h1s, combineStep_n0,
        combineStep_B]
      exact hs.hlvl1
  · intro k h1 hkr
    by_cases hki : k = i
    · subst hki
      rw [combineStep_n_self, combineStep_B]
      omega
    · by_cases hks : k = i + 1
      · subst hks
        rw [combineStep_n_succ, combineStep_B]
        omega
      · rw [combineStep_n_ne _ _ hki hks, combineStep_B]
        exact hs.hnle k h1 hkr
  · rw [combineStep_N, hrep]
    exact hs.hN

end RArr

namespace RArr

theorem combineLoop_spec {α : Type} {r : Nat} :
    ∀ (i : Nat) (u : RA α), 1 ≤ i → i + 1 < r → SInv r u →
      (∀ m, 1 ≤ m → m ≤ i → u.n m = 2 * u.B) →
      u.n0 = u.B →
      u.n (i+1) < 2 * u.B →
      SInv r (combineLoop u i) ∧
      (combineLoop u i).N = u.N ∧ (combineLoop u i).B = u.B ∧
      (combineLoop u i).n0 = u.n0 ∧
      repList r (combineLoop u i) = repList r u ∧
      (combineLoop u i).n 1 = u.B ∧
      (combineLoop u i).n (i+1) = u.n (i+1) + 1 ∧
      (∀ k, i + 1 < k → (combineLoop u i).n k = u.n k) := by
  intro i
  induction i with
  | zero => intro u h; omega
  | succ i ih =>
    intro u h1 hir hs hfull hn0 htar
    match i, ih with
    | 0, _ =>
      rw [show combineLoop u 1 = combineStep u 1 from rfl]
      obtain ⟨hsv, hN, hB, hn0v, hrep, hni, hnsucc, hnne, hlvlne⟩ :=
        combineStep_spec hs (by omega) (by omega) (hfull 1 (by omega) (by omega)) htar
          (fun _ => hn0)
      exact ⟨hsv, hN, hB, hn0v, hrep, hni, hnsucc, fun k hk => hnne k (by omega) (by omega)⟩
    | i+1, ih =>
      rw [show combineLoop u (i+2) = combineLoop (combineStep u (i+2)) (i+1) from rfl]
      obtain ⟨hsv, hN, hB, hn0v, hrep, hni, hnsucc, hnne, hlvlne⟩ :=
        combineStep_spec hs (by omega) (by omega) (hfull (i+2) (by omega) (by omega))
          htar (fun h => absurd h (by omega))
      have hBpos := hs.hBpos
      obtain ⟨hsv2, hN2, hB2, hn02, hrep2, hn1v, hnsucc2, hnne2⟩ :=
        ih (combineStep u (i+2)) (by omega) (by omega) hsv
          (fun m hm1 hm2 => by
            rw [hnne m (by omega) (by omega), hB]
            exact hfull m hm1 (by omega))
          (by rw [hn0v]; exact hn0)
          (by rw [hni, hB]; omega)
      refine ⟨hsv2, by rw [hN2, hN], by rw [hB2, hB], by rw [hn02, hn0v],
        by rw [hrep2, hrep], by rw [hn1v, hB], ?_, ?_⟩
      · rw [hnne2 (i+2+1) (by omega), hnsucc]
      · intro k hk
        rw [hnne2 k (by omega), hnne k (by omega) (by omega)]

theorem combine_k_exists {α : Type} {r : Nat} {s : RA α} (hs : SInv r s)
    (hNlt : s.N < s.B ^ r) (hn1 : s.n 1 = 2 * s.B) (hn0 : s.n0 = s.B) :
    ∃ k, 2 ≤ k ∧ k < r ∧ s.n k < 2 * s.B := by
  have hB4 := hs.hB4
  have hr2 := hs.hr
  have hN := hs.hN
  by_cases hre : r = 2
  · exfalso
    subst hre
    have hflat1 := hs.flatten_lvl1_length
    rw [if_neg (by omega), hn1, hn0] at hflat1
    rw [repList, List.length_append, hflat1] at hN
    have hbig0 : (bigConcat s (2-1)).length = 0 := by
      rw [show (2:Nat) - 1 = 1 from rfl, bigConcat]
      rfl
    rw [hbig0] at hN
    have hsq : s.B ^ 2 = s.B * s.B := by rw [pow_two]
    rw [hsq] at hNlt
    have : (2 * s.B - 1) * s.B + s.B = 2 * (s.B * s.B) := by
      have h1 : 2 * s.B - 1 + 1 = 2 * s.B := by omega
      calc (2 * s.B - 1) * s.B + s.B = (2 * s.B - 1 + 1) * s.B := by ring
        _ = 2 * s.B * s.B := by rw [h1]
        _ = 2 * (s.B * s.B) := by ring
    omega
  · by_contra hno
    push_neg at hno
    have htop : 2 * s.B ≤ s.n (r-1) := hno (r-1) (by omega) (by omega)
    obtain ⟨l, hl⟩ : ∃ l, r - 1 = l + 2 := ⟨r - 3, by omega⟩
    have hbiglen : ((s.levels (r-1)).flatten).length = s.n (r-1) * s.B ^ (r-1) :=
      hs.flatten_big_length (by omega) (by omega)
    have hNlow : s.n (r-1) * s.B ^ (r-1) ≤ s.N := by
      rw [hN, repList, hl, bigConcat, List.append_assoc, List.length_append, ← hl]
      omega
    have hmul : 2 * s.B * s.B ^ (r-1) ≤ s.n (r-1) * s.B ^ (r-1) :=
      Nat.mul_le_mul_right _ htop
    have hvol : s.B ^ r = s.B ^ (r-1) * s.B := by
      rw [← pow_succ]
      congr 1
      omega
    have hpos : 0 < s.B ^ (r-1) := hs.hBpowpos _
    have : 2 * (s.B ^ (r-1) * s.B) ≤ s.n (r-1) * s.B ^ (r-1) := by
      calc 2 * (s.B ^ (r-1) * s.B) = 2 * s.B * s.B ^ (r-1) := by ring
        _ ≤ s.n (r-1) * s.B ^ (r-1) := hmul
    omega

theorem combineBlocks_spec {α : Type} {r : Nat} {s : RA α} (hs : SInv r s)
    (hNlt : s.N < s.B ^ r) (hn1 : s.n 1 = 2 * s.B) (hn0 : s.n0 = s.B) :
    ∃ t, combineBlocks r s = (t, none) ∧ SInv r t ∧
      t.N = s.N ∧ t.B = s.B ∧ t.n0 = s.n0 ∧ repList r t = repList r s ∧ t.n 1 = s.B := by
  obtain ⟨k0, hk02, hk0r, hk0lt⟩ := combine_k_exists hs hNlt hn1 hn0
  obtain ⟨kf, hkf⟩ := scanLt_isSome s.n (2 * s.B) (r-1) 1 ⟨k0, by omega, by omega, hk0lt⟩
  obtain ⟨hkf1, hkfr, hkflt, hkfmin⟩ := scanLt_some_spec s.n (2 * s.B) (r-1) 1 kf hkf
  have hkf2 : 2 ≤ kf := by
    rcases Nat.lt_or_ge kf 2 with h | h
    · exfalso
      have : kf = 1 := by omega
      subst this
      omega
    · exact h
  obtain ⟨q, rfl⟩ : ∃ q, kf = q + 2 := ⟨kf - 2, by omega⟩
  have hcb : combineBlocks r s = (combineLoop s (q + 1), none) := by
    rw [combineBlocks, hkf]
    rfl
  obtain ⟨hsv, hN, hB, hn0v, hrep, hn1v, hnsucc, hnne⟩ :=
    combineLoop_spec (q+1) s (by omega) (by omega) hs
      (fun m hm1 hm2 => by
        have hle := hs.hnle m hm1 (by omega)
        have hge := hkfmin m hm1 (by omega)
        omega)
      hn0 hkflt
  exact ⟨combineLoop s (q+1), hcb, hsv, hN, hB, hn0v, hrep, hn1v⟩

end RArr

namespace RArr

/-! ### The append path -/

@[simp] theorem pushNewBlock_N {α : Type} (s : RA α) : (pushNewBlock s).N = s.N := rfl

@[simp] theorem pushNewBlock_B {α : Type} (s : RA α) : (pushNewBlock s).B = s.B := rfl

@[simp] theorem pushNewBlock_n0 {α : Type} (s : RA α) : (pushNewBlock s).n0 = 0 := rfl

theorem pushNewBlock_levels_ne {α : Type} (s : RA α) {k : Nat} (h : k ≠ 1) :
    (pushNewBlock s).levels k = s.levels k := by
  show updF s.levels 1 _ k = s.levels k
  rw [updF_ne _ _ h]

theorem pushNewBlock_levels_one {α : Type} (s : RA α) :
    (pushNewBlock s).levels 1 = s.levels 1 ++ [[]] := by
  simp [pushNewBlock, updF]

theorem pushNewBlock_n_ne {α : Type} (s : RA α) {k : Nat} (h : k ≠ 1) :
    (pushNewBlock s).n k = s.n k := by
  show updF s.n 1 _ k = s.n k
  rw [updF_ne _ _ h]

theorem pushNewBlock_n_one {α : Type} (s : RA α) :
    (pushNewBlock s).n 1 = s.n 1 + 1 := by
  simp [pushNewBlock, updF]

@[simp] theorem writeLastSlot_N {α : Type} (x : α) (s : RA α) :
    (writeLastSlot x s).N = s.N + 1 := rfl

@[simp] theorem writeLastSlot_B {α : Type} (x : α) (s : RA α) :
    (writeLastSlot x s).B = s.B := rfl

@[simp] theorem writeLastSlot_n {α : Type} (x : α) (s : RA α) :
    (writeLastSlot x s).n = s.n := rfl

@[simp] theorem writeLastSlot_n0 {α : Type} (x : α) (s : RA α) :
    (writeLastSlot x s).n0 = s.n0 + 1 := rfl

theorem writeLastSlot_levels_ne {α : Type} (x : α) (s : RA α) {k : Nat} (h : k ≠ 1) :
    (writeLastSlot x s).levels k = s.levels k := by
  show updF s.levels 1 _ k = s.levels k
  rw [updF_ne _ _ h]

theorem writeLastSlot_levels_one {α : Type} (x : α) (s : RA α) :
    (writeLastSlot x s).levels 1
      = (s.levels 1).set (s.n 1 - 1) (((s.levels 1).getD (s.n 1 - 1) []) ++ [x]) := by
  simp [writeLastSlot, updF]

theorem growCore_eq_combine {α : Type} (r : Nat) (x : α) (s t : RA α)
    (hc : s.n 1 = 2 * s.B ∧ s.n0 = s.B)
    (hcb : combineBlocks r s = (t, none)) :
    growCore r x s
      = (writeLastSlot x (if t.n 1 = 0 ∨ t.n0 = t.B then pushNewBlock t else t), none) := by
  rw [growCore, if_pos hc, hcb]

theorem growCore_eq_no_combine {α : Type} (r : Nat) (x : α) (s : RA α)
    (hc : ¬(s.n 1 = 2 * s.B ∧ s.n0 = s.B)) :
    growCore r x s
      = (writeLastSlot x (if s.n 1 = 0 ∨ s.n0 = s.B then pushNewBlock s else s), none) := by
  rw [growCore, if_neg hc]

/-- Appending through a fresh level-1 block (the `n_[1] == 0 || n0_ == B_`
branch of `grow` followed by the write). -/
theorem pushWrite_spec {α : Type} {r : Nat} {u : RA α} (hs : SInv r u)
    (hcond : u.n 1 = 0 ∨ u.n0 = u.B) (hn1lt : u.n 1 < 2 * u.B) (x : α) :
    SInv r (writeLastSlot x (pushNewBlock u)) ∧
      (writeLastSlot x (pushNewBlock u)).N = u.N + 1 ∧
      (writeLastSlot x (pushNewBlock u)).B = u.B ∧
      repList r (writeLastSlot x (pushNewBlock u)) = repList r u ++ [x] := by
  have hB4 := hs.hB4
  have hlen1 : (u.levels 1).length = u.n 1 := hs.hlen 1
  have hw1 : (writeLastSlot x (pushNewBlock u)).levels 1 = u.levels 1 ++ [[x]] := by
    rw [writeLastSlot_levels_one, pushNewBlock_levels_one, pushNewBlock_n_one,
      Nat.add_sub_cancel, getD_append_right _ _ _ (le_of_eq hlen1), hlen1, Nat.sub_self,
      List.set_append_right _ _ (le_of_eq hlen1), hlen1, Nat.sub_self]
    rfl
  have hwne : ∀ k, k ≠ 1 → (writeLastSlot x (pushNewBlock u)).levels k = u.levels k := by
    intro k hk
    rw [writeLastSlot_levels_ne _ _ hk, pushNewBlock_levels_ne _ hk]
  have hn1w : (writeLastSlot x (pushNewBlock u)).n 1 = u.n 1 + 1 := by
    rw [writeLastSlot_n, pushNewBlock_n_one]
  have hnw : ∀ k, k ≠ 1 → (writeLastSlot x (pushNewBlock u)).n k = u.n k := by
    intro k hk
    rw [writeLastSlot_n, pushNewBlock_n_ne _ hk]
  have hn0w : (writeLastSlot x (pushNewBlock u)).n0 = 1 := by
    rw [writeLastSlot_n0, pushNewBlock_n0]
  have hagree : ∀ k, 2 ≤ k → k ≤ r - 1 →
      (writeLastSlot x (pushNewBlock u)).levels k = u.levels k :=
    fun k h2 hk => hwne k (by omega)
  have hrep : repList r (writeLastSlot x (pushNewBlock u)) = repList r u ++ [x] := by
    rw [repList, repList, bigConcat_congr (r-1) hagree, hw1, List.flatten_concat,
      ← List.append_assoc]
  have hold : ∀ j, j < u.n 1 → ((u.levels 1).getD j []).length = u.B := by
    intro j hj
    rcases hs.hlvl1 with ⟨h0, -⟩ | ⟨-, -, -, hlens⟩
    · omega
    · have := hlens j hj
      rcases hcond with hc | hc
      · omega
      · by_cases hq : j + 1 = u.n 1
        · rw [if_pos hq] at this
          rw [this, hc]
        · rwa [if_neg hq] at this
  refine ⟨?_, rfl, rfl, hrep⟩
  refine
    { hr := hs.hr
      hBform := hs.hBform
      hlen := ?_
      hout := ?_
      hbig := ?_
      hlvl1 := ?_
      hnle := ?_
      hN := ?_ }
  · intro k
    by_cases hk : k = 1
    · subst hk
      rw [hw1, hn1w, List.length_append, hlen1, List.length_cons, List.length_nil]
    · rw [hwne k hk, hnw k hk]
      exact hs.hlen k
  · intro k hk
    have : k ≠ 1 := by
      have := hs.hr
      omega
    rw [hnw k this]
    exact hs.hout k hk
  · intro k h2 hkr j hj
    have hk : k ≠ 1 := by omega
    rw [hwne k hk, writeLastSlot_B, pushNewBlock_B, hnw k hk] at *
    exact hs.hbig k h2 hkr j hj
  · refine Or.inr ⟨?_, ?_, ?_, ?_⟩
    · rw [hn0w]
    · rw [hn0w, writeLastSlot_B, pushNewBlock_B]; omega
    · rw [hn1w]; omega
    · intro j hj
      rw [hn1w] at hj
      rw [hw1, hn1w, hn0w, writeLastSlot_B, pushNewBlock_B]
      by_cases hjn : j < u.n 1
      · rw [getD_append_left _ _ _ (by rw [hlen1]; exact hjn), if_neg (by omega)]
        exact hold j hjn
      · have hje : j = u.n 1 := by omega
        rw [getD_append_right _ _ _ (by rw [hlen1]; omega), hlen1, hje, Nat.sub_self,
          if_pos (by omega)]
        rfl
  · intro k h1 hkr
    by_cases hk : k = 1
    · subst hk
      rw [hn1w, writeLastSlot_B, pushNewBlock_B]
      omega
    · rw [hnw k hk, writeLastSlot_B, pushNewBlock_B]
      exact hs.hnle k h1 hkr
  · rw [writeLastSlot_N, pushNewBlock_N, hrep, List.length_append, hs.hN]
    rfl

/-- Appending into the existing last level-1 block (no new block needed). -/
theorem writeOnly_spec {α : Type} {r : Nat} {u : RA α} (hs : SInv r u)
    (hn1 : u.n 1 ≠ 0) (hn0 : u.n0 ≠ u.B) (x : α) :
    SInv r (writeLastSlot x u) ∧
      (writeLastSlot x u).N = u.N + 1 ∧
      (writeLastSlot x u).B = u.B ∧
      repList r (writeLastSlot x u) = repList r u ++ [x] := by
  have hB4 := hs.hB4
  have hlen1 : (u.levels 1).length = u.n 1 := hs.hlen 1
  obtain ⟨hn0ge, hn0le, hn1ge, hlens⟩ :
      1 ≤ u.n0 ∧ u.n0 ≤ u.B ∧ 1 ≤ u.n 1 ∧
        ∀ j, j < u.n 1 →
          ((u.levels 1).getD j []).length = if j + 1 = u.n 1 then u.n0 else u.B := by
    rcases hs.hlvl1 with ⟨h0, -⟩ | h
    · omega
    · exact h
  have hn0lt : u.n0 < u.B := by omega
  have hdec := take_concat_getD ([] : List α) (u.levels 1) (by omega)
  rw [hlen1] at hdec
  have htakelen : ((u.levels 1).take (u.n 1 - 1)).length = u.n 1 - 1 := by
    rw [List.length_take, hlen1]
    exact min_eq_left (by omega)
  have hw1 : (writeLastSlot x u).levels 1
      = (u.levels 1).take (u.n 1 - 1)
        ++ [((u.levels 1).getD (u.n 1 - 1) []) ++ [x]] := by
    rw [writeLastSlot_levels_one]
    conv_lhs => rw [← hdec]
    rw [List.set_append_right _ _ (le_of_eq htakelen), htakelen, Nat.sub_self,
      List.set_cons_zero]
    congr 2
    rw [getD_append_right _ _ _ (le_of_eq htakelen), htakelen, Nat.sub_self]
    rfl
  have hlast : ((u.levels 1).getD (u.n 1 - 1) []).length = u.n0 := by
    have := hlens (u.n 1 - 1) (by omega)
    rwa [if_pos (by omega)] at this
  have hagree : ∀ k, 2 ≤ k → k ≤ r - 1 → (writeLastSlot x u).levels k = u.levels k :=
    fun k h2 hk => writeLastSlot_levels_ne _ _ (by omega)
  have hrep : repList r (writeLastSlot x u) = repList r u ++ [x] := by
    rw [repList, repList, bigConcat_congr (r-1) hagree, hw1]
    conv_rhs => rw [← hdec]
    simp [List.flatten_concat, List.append_assoc]
  refine ⟨?_, rfl, rfl, hrep⟩
  refine
    { hr := hs.hr
      hBform := hs.hBform
      hlen := ?_
      hout := ?_
      hbig := ?_
      hlvl1 := ?_
      hnle := ?_
      hN := ?_ }
  · intro k
    by_cases hk : k = 1
    · subst hk
      rw [hw1, writeLastSlot_n, List.length_append, htakelen, List.length_cons,
        List.length_nil]
      omega
    · rw [writeLastSlot_levels_ne _ _ hk, writeLastSlot_n]
      exact hs.hlen k
  · intro k hk
    rw [writeLastSlot_n]
    exact hs.hout k hk
  · intro k h2 hkr j hj
    have hk : k ≠ 1 := by omega
    rw [writeLastSlot_levels_ne _ _ hk, writeLastSlot_B, writeLastSlot_n] at *
    exact hs.hbig k h2 hkr j hj
  · refine Or.inr ⟨?_, ?_, ?_, ?_⟩
    · rw [writeLastSlot_n0]; omega
    · rw [writeLastSlot_n0, writeLastSlot_B]; omega
    · rw [writeLastSlot_n]; omega
    · intro j hj
      rw [writeLastSlot_n] at hj
      rw [hw1, writeLastSlot_n, writeLastSlot_n0, writeLastSlot_B]
      by_cases hjn : j < u.n 1 - 1
      · rw [getD_append_left _ _ _ (by rw [htakelen]; exact hjn),
          getD_take_of_lt _ _ hjn, if_neg (by omega)]
        have := hlens j (by omega)
        rwa [if_neg (by omega)] at this
      · have hje : j = u.n 1 - 1 := by omega
        rw [getD_append_right _ _ _ (by rw [htakelen]; omega), htakelen, hje, Nat.sub_self,
          if_pos (by omega)]
        show (((u.levels 1).getD (u.n 1 - 1) []) ++ [x]).length = u.n0 + 1
        rw [List.length_append, hlast]
        rfl
  · intro k h1 hkr
    rw [writeLastSlot_n, writeLastSlot_B]
    exact hs.hnle k h1 hkr
  · rw [writeLastSlot_N, hrep, List.length_append, hs.hN]
    rfl

end RArr

namespace RArr

/-- Correctness of the post-guard append body: on a structurally sound state
that is not at the rebuild threshold, the combine / new-block / write sequence
succeeds and appends exactly one element to the logical sequence. -/
theorem growCore_spec {α : Type} {r : Nat} {s : RA α} (hs : SInv r s)
    (hNlt : s.N < s.B ^ r) (x : α) :
    ∃ t, growCore r x s = (t, none) ∧ SInv r t ∧
      t.B = s.B ∧ t.N = s.N + 1 ∧ repList r t = repList r s ++ [x] := by
  have hB4 := hs.hB4
  have hr2 := hs.hr
  by_cases htrig : s.n 1 = 2 * s.B ∧ s.n0 = s.B
  · obtain ⟨t1, hcb, hsv1, hN1, hB1, hn01, hrep1, hn11⟩ :=
      combineBlocks_spec hs hNlt htrig.1 htrig.2
    have hcond : t1.n 1 = 0 ∨ t1.n0 = t1.B := by
      right
      rw [hn01, hB1, htrig.2]
    have heq := growCore_eq_combine r x s t1 htrig hcb
    rw [if_pos hcond] at heq
    obtain ⟨hsv, hN, hB, hrep⟩ :=
      pushWrite_spec hsv1 hcond (by rw [hn11, hB1]; omega) x
    refine ⟨_, heq, hsv, ?_, ?_, ?_⟩
    · rw [hB, hB1]
    · rw [hN, hN1]
    · rw [hrep, hrep1]
  · have heq := growCore_eq_no_combine r x s htrig
    by_cases hcond : s.n 1 = 0 ∨ s.n0 = s.B
    · rw [if_pos hcond] at heq
      have hn1lt : s.n 1 < 2 * s.B := by
        rcases hcond with hc | hc
        · omega
        · have hle := hs.hnle 1 (by omega) (by omega)
          rcases Nat.lt_or_ge (s.n 1) (2 * s.B) with h | h
          · exact h
          · exfalso
            exact htrig ⟨by omega, hc⟩
      obtain ⟨hsv, hN, hB, hrep⟩ := pushWrite_spec hs hcond hn1lt x
      exact ⟨_, heq, hsv, hB, hN, hrep⟩
    · rw [if_neg hcond] at heq
      push_neg at hcond
      obtain ⟨hsv, hN, hB, hrep⟩ := writeOnly_spec hs hcond.1 hcond.2 x
      exact ⟨_, heq, hsv, hB, hN, hrep⟩

/-- The capture loop reads out exactly the logical element sequence. -/
theorem captureFrom_spec {α : Type} [Inhabited α] {r : Nat} {s : RA α} (hs : SInv r s) :
    ∀ fuel i, i + fuel ≤ s.N →
      captureFrom r s i fuel
        = .ok (((repList r s).drop i).take fuel) := by
  intro fuel
  induction fuel with
  | zero => intro i _; rw [captureFrom]; simp
  | succ fuel ih =>
    intro i hif
    have hget := get_spec hs (show i < s.N by omega)
    have hih := ih (i+1) (by omega)
    rw [captureFrom, hget, hih]
    have hlen : i < (repList r s).length := by rw [← hs.hN]; omega
    have hdt : (repList r s).drop i
        = (repList r s).getD i default :: (repList r s).drop (i+1) := by
      rw [List.getD_eq_getElem?_getD, List.getElem?_eq_getElem hlen]
      exact List.drop_eq_getElem_cons hlen
    rw [hdt]
    rfl

theorem captureFrom_all {α : Type} [Inhabited α] {r : Nat} {s : RA α} (hs : SInv r s) :
    captureFrom r s 0 s.N = .ok (repList r s) := by
  rw [captureFrom_spec hs s.N 0 (by omega)]
  rw [List.drop_zero, List.take_of_length_le (le_of_eq hs.hN.symm)]

/-- The default-constructed / freshly re-initialised state is structurally
sound for any power-of-two multiple of 4 as the base. -/
theorem emptyWithB_SInv {α : Type} {r : Nat} (hr : 2 ≤ r) {B : Nat}
    (hBform : ∃ m, B = 4 * 2 ^ m) : SInv r ((emptyWithB B : RA α)) := by
  have hbc : ∀ lvl, bigConcat ((emptyWithB B : RA α)) lvl = [] := by
    intro lvl
    induction lvl with
    | zero => rfl
    | succ lvl ih =>
      match lvl, ih with
      | 0, _ => rfl
      | lvl+1, ih => rw [bigConcat, ih]; rfl
  refine
    { hr := hr
      hBform := hBform
      hlen := fun k => rfl
      hout := fun k _ => rfl
      hbig := fun k _ _ j hj => by simp [emptyWithB] at hj
      hlvl1 := Or.inl ⟨rfl, rfl⟩
      hnle := fun k _ _ => by simp [emptyWithB]
      hN := by rw [repList, hbc]; rfl }

/-- Folding the append body over a buffered element list (the re-insertion
loop of `rebuild` and of the copy operations). -/
theorem growList_spec {α : Type} {r : Nat} :
    ∀ (xs : List α) (u : RA α), SInv r u →
      u.N + xs.length ≤ u.B ^ r →
      ∃ t, growList r xs u = (t, none) ∧ SInv r t ∧
        t.B = u.B ∧ t.N = u.N + xs.length ∧
        repList r t = repList r u ++ xs := by
  intro xs
  induction xs with
  | nil =>
    intro u hs _
    exact ⟨u, rfl, hs, rfl, by simp, by simp⟩
  | cons x xs ih =>
    intro u hs hcap
    obtain ⟨t1, heq1, hsv1, hB1, hN1, hrep1⟩ :=
      growCore_spec hs (by rw [List.length_cons] at hcap; omega) x
    have hstep : growList r (x :: xs) u = growList r xs t1 := by
      show List.foldl _ (growCore r x u) xs = growList r xs t1
      rw [heq1, growList]
    obtain ⟨t, heqt, hsvt, hBt, hNt, hrept⟩ :=
      ih t1 hsv1 (by rw [hN1, hB1]; rw [List.length_cons] at hcap; omega)
    refine ⟨t, by rw [hstep, heqt], hsvt, by rw [hBt, hB1], by
      rw [hNt, hN1, List.length_cons]; omega, ?_⟩
    rw [hrept, hrep1, List.append_assoc]
    rfl

/-- `rebuild` succeeds on structurally sound states whose element count fits
the new base, reproducing the same logical sequence with base `newB`. -/
theorem rebuild_spec {α : Type} [Inhabited α] {r : Nat} {s : RA α} (hs : SInv r s)
    {newB : Nat} (hform : ∃ m, newB = 4 * 2 ^ m) (hcap : s.N ≤ newB ^ r) :
    ∃ t, rebuild α r newB s = (t, none) ∧ SInv r t ∧
      t.B = newB ∧ t.N = s.N ∧ repList r t = repList r s := by
  have hcapt := captureFrom_all hs
  have hempty : SInv r (emptyWithB newB : RA α) := emptyWithB_SInv hs.hr hform
  obtain ⟨t, heqt, hsvt, hBt, hNt, hrept⟩ :=
    growList_spec (repList r s) (emptyWithB newB) hempty
      (by
        show 0 + (repList r s).length ≤ newB ^ r
        rw [Nat.zero_add, ← hs.hN]
        exact hcap)
  refine ⟨t, ?_, hsvt, hBt, ?_, ?_⟩
  · rw [rebuild, hcapt]
    exact heqt
  · rw [hNt]
    show 0 + (repList r s).length = s.N
    rw [Nat.zero_add, hs.hN]
  · rw [hrept, repList]
    have : ((emptyWithB newB : RA α)).levels 1 = [] := rfl
    rw [this]
    have hbc : bigConcat ((emptyWithB newB : RA α)) (r-1) = [] := by
      generalize r - 1 = m
      induction m with
      | zero => rfl
      | succ m ih =>
        match m, ih with
        | 0, _ => rfl
        | m+1, ih => rw [bigConcat, ih]; rfl
    rw [hbc]
    rfl

end RArr

namespace RArr

/-- During a rebuild or copy re-insertion the element count stays strictly
below the new capacity, so the full `grow` called by the source coincides with
the post-guard body `growCore` that the model folds. -/
theorem grow_eq_growCore {α : Type} [Inhabited α] (r : Nat) (x : α) (s : RA α)
    (h : s.N ≠ power s.B r) :
    grow r x s = growCore r x s := by
  rw [grow, if_neg h]

theorem grow_eq_rebuild {α : Type} [Inhabited α] (r : Nat) (x : α) (s t : RA α)
    (h : s.N = power s.B r) (hrb : rebuild α r (2 * s.B) s = (t, none)) :
    grow r x s = growCore r x t := by
  rw [grow, if_pos h, hrb]

/-- Full append correctness: on an at-rest state `grow` succeeds, appends one
element, doubles `B` exactly at the `N = B^r` threshold and keeps it otherwise. -/
theorem grow_spec {α : Type} [Inhabited α] {r : Nat} {s : RA α} (hs : Inv r s) (x : α) :
    ∃ t, grow r x s = (t, none) ∧ Inv r t ∧
      t.N = s.N + 1 ∧ repList r t = repList r s ++ [x] ∧
      (s.N = s.B ^ r → t.B = 2 * s.B) ∧ (s.N ≠ s.B ^ r → t.B = s.B) := by
  have hB4 := hs.hB4
  have hBpos := hs.hBpos
  by_cases hth : s.N = s.B ^ r
  · obtain ⟨m, hm⟩ := hs.hBform
    have hform2 : ∃ m2, 2 * s.B = 4 * 2 ^ m2 := ⟨m + 1, by rw [hm]; ring⟩
    have hlt : s.B ^ r < (2 * s.B) ^ r :=
      Nat.pow_lt_pow_left (by omega) (by have := hs.hr; omega)
    obtain ⟨s1, hrb, hsv1, hB1, hN1, hrep1⟩ :=
      rebuild_spec hs.toSInv hform2 (by omega)
    obtain ⟨t, heqt, hsvt, hBt, hNt, hrept⟩ :=
      growCore_spec hsv1 (by rw [hN1, hB1, hth]; exact hlt) x
    have hgrow : grow r x s = (t, none) := by
      rw [grow_eq_rebuild r x s s1 (by rw [power_eq]; exact hth) hrb]
      exact heqt
    have htB : t.B = 2 * s.B := by rw [hBt, hB1]
    refine ⟨t, hgrow, ?_, by rw [hNt, hN1], by rw [hrept, hrep1],
      fun _ => htB, fun hne => absurd hth hne⟩
    refine { toSInv := hsvt, hNle := ?_, hNge := ?_ }
    · rw [hNt, hN1, hth, htB]
      calc s.B ^ r + 1 ≤ 2 * s.B ^ r := by
            have := hs.hBpowpos r
            omega
        _ ≤ 2 ^ r * s.B ^ r := by
            have h2r : 2 ≤ 2 ^ r := by
              calc (2:Nat) = 2 ^ 1 := by rw [pow_one]
                _ ≤ 2 ^ r := Nat.pow_le_pow_right (by omega) (by have := hs.hr; omega)
            exact Nat.mul_le_mul_right _ h2r
        _ = (2 * s.B) ^ r := by rw [Nat.mul_pow]
    · intro h8
      rw [htB] at h8 ⊢
      have hhalf : 2 * s.B / 4 ≤ s.B := by omega
      have : (2 * s.B / 4) ^ r ≤ s.B ^ r := Nat.pow_le_pow_left hhalf r
      rw [hNt, hN1, hth]
      omega
  · have hNlt : s.N < s.B ^ r := lt_of_le_of_ne hs.hNle hth
    obtain ⟨t, heqt, hsvt, hBt, hNt, hrept⟩ := growCore_spec hs.toSInv hNlt x
    have hgrow : grow r x s = (t, none) := by
      rw [grow_eq_growCore r x s (by rw [power_eq]; exact hth)]
      exact heqt
    refine ⟨t, hgrow, ?_, hNt, hrept, fun h => absurd h hth, fun _ => hBt⟩
    refine { toSInv := hsvt, hNle := ?_, hNge := ?_ }
    · rw [hNt, hBt]
      omega
    · intro h8
      rw [hBt] at h8
      have := hs.hNge h8
      rw [hNt, hBt]
      omega

end RArr

namespace RArr

/-! ### The split step -/

theorem getD_dropLast {α : Type} (l : List α) (d : α) {j : Nat} (h : j < l.length - 1) :
    l.dropLast.getD j d = l.getD j d := by
  simp only [List.getD_eq_getElem?_getD, List.getElem?_dropLast]
  rw [if_pos h]

theorem scanPos_some_spec (n : Nat → Nat) :
    ∀ fuel i k, scanPos n i fuel = some k →
      i ≤ k ∧ k < i + fuel ∧ 0 < n k ∧ ∀ j, i ≤ j → j < k → n j = 0 := by
  intro fuel
  induction fuel with
  | zero => intro i k h; simp [scanPos] at h
  | succ fuel ih =>
    intro i k h
    rw [scanPos] at h
    by_cases hc : 0 < n i
    · rw [if_pos hc] at h
      obtain rfl : i = k := Option.some.inj h
      exact ⟨le_refl _, by omega, hc, fun j h1 h2 => by omega⟩
    · rw [if_neg hc] at h
      obtain ⟨h1, h2, h3, h4⟩ := ih (i+1) k h
      refine ⟨by omega, by omega, h3, fun j hj1 hj2 => ?_⟩
      by_cases hji : j = i
      · subst hji; omega
      · exact h4 j (by omega) hj2

theorem scanPos_isSome (n : Nat → Nat) :
    ∀ fuel i, (∃ k, i ≤ k ∧ k < i + fuel ∧ 0 < n k) →
      ∃ k, scanPos n i fuel = some k := by
  intro fuel
  induction fuel with
  | zero =>
    intro i h
    obtain ⟨k, h1, h2, -⟩ := h
    omega
  | succ fuel ih =>
    intro i h
    obtain ⟨k, h1, h2, h3⟩ := h
    rw [scanPos]
    by_cases hc : 0 < n i
    · exact ⟨i, by rw [if_pos hc]⟩
    · rw [if_neg hc]
      apply ih (i+1)
      have : k ≠ i := fun heq => hc (heq ▸ h3)
      exact ⟨k, by omega, by omega, h3⟩

theorem chunkList_length {α : Type} (sm : Nat) :
    ∀ cnt (big : List α), (chunkList sm cnt big).length = cnt := by
  intro cnt
  induction cnt with
  | zero => intro big; rfl
  | succ cnt ih => intro big; rw [chunkList, List.length_cons, ih]

theorem chunkList_getD {α : Type} (sm : Nat) :
    ∀ cnt (big : List α) j, j < cnt →
      (chunkList sm cnt big).getD j [] = (big.drop (j * sm)).take sm := by
  intro cnt
  induction cnt with
  | zero => intro big j hj; omega
  | succ cnt ih =>
    intro big j hj
    cases j with
    | zero => rw [chunkList]; simp
    | succ j =>
      rw [chunkList, List.getD_cons_succ, ih (big.drop sm) j (by omega), List.drop_drop]
      congr 2
      ring

theorem chunkList_getD_length {α : Type} (sm : Nat) :
    ∀ cnt (big : List α), big.length = cnt * sm → ∀ j, j < cnt →
      ((chunkList sm cnt big).getD j []).length = sm := by
  intro cnt big hlen j hj
  rw [chunkList_getD sm cnt big j hj, List.length_take, List.length_drop, hlen]
  have : j + 1 ≤ cnt := hj
  have hmul : (j + 1) * sm ≤ cnt * sm := Nat.mul_le_mul_right _ this
  rw [Nat.add_mul, Nat.one_mul] at hmul
  exact min_eq_left (by omega)

theorem chunkList_flatten {α : Type} (sm : Nat) :
    ∀ cnt (big : List α), big.length = cnt * sm →
      (chunkList sm cnt big).flatten = big := by
  intro cnt
  induction cnt with
  | zero =>
    intro big hlen
    rw [Nat.zero_mul] at hlen
    rw [chunkList, List.flatten_nil, (List.length_eq_zero.mp hlen).symm]
  | succ cnt ih =>
    intro big hlen
    rw [chunkList, List.flatten_cons, ih (big.drop sm) (by
      rw [List.length_drop, hlen, Nat.succ_mul]
      omega), List.take_append_drop]

/-- Splitting the first `cnt-1` chunks off and carrying the last one loses no
element: the appended chunks followed by the carried chunk reconstitute `big`. -/
theorem chunkList_take_carry {α : Type} (sm cnt : Nat) (big : List α)
    (hlen : big.length = (cnt + 1) * sm) :
    ((chunkList sm (cnt + 1) big).take cnt).flatten
        ++ (chunkList sm (cnt + 1) big).getD cnt []
      = big := by
  have hfl := chunkList_flatten sm (cnt + 1) big hlen
  have hlensplit : chunkList sm (cnt + 1) big
      = (chunkList sm (cnt + 1) big).take cnt
        ++ [(chunkList sm (cnt + 1) big).getD cnt []] := by
    have hcl : (chunkList sm (cnt + 1) big).length = cnt + 1 := chunkList_length sm _ _
    have h2 := take_concat_getD ([] : List α) (chunkList sm (cnt + 1) big)
      (by rw [hcl]; omega)
    rw [hcl, Nat.add_sub_cancel] at h2
    exact h2.symm
  conv_rhs => rw [← hfl]
  conv_rhs => rw [hlensplit]
  rw [List.flatten_concat]

theorem bigConcat_nil {α : Type} (s : RA α) :
    ∀ lvl, (∀ k, 2 ≤ k → k ≤ lvl → s.levels k = []) → bigConcat s lvl = [] := by
  intro lvl
  induction lvl with
  | zero => intro _; rfl
  | succ lvl ih =>
    match lvl, ih with
    | 0, _ => intro _; rfl
    | lvl+1, ih =>
      intro h
      rw [bigConcat, h (lvl+2) (by omega) (by omega),
        ih (fun k h2 hk => h k h2 (by omega))]
      rfl

theorem concatDown_nil {α : Type} (s : RA α) :
    ∀ m, (∀ k, 1 ≤ k → k ≤ m → s.levels k = []) → concatDown s m = [] := by
  intro m
  induction m with
  | zero => intro _; rfl
  | succ m ih =>
    intro h
    rw [concatDown, h (m+1) (by omega) (by omega),
      ih (fun k h1 hk => h k h1 (by omega))]
    rfl

end RArr

namespace RArr

theorem splitLoop_spec {α : Type} :
    ∀ (v : Nat) (u : RA α) (big : List α), 1 ≤ v →
      0 < u.B →
      big.length = u.B ^ (v+1) →
      (∀ m, 1 ≤ m → m ≤ v → u.n m = 0 ∧ u.levels m = []) →
      (splitLoop u v big).N = u.N ∧ (splitLoop u v big).B = u.B ∧
      (splitLoop u v big).n0 = u.n0 ∧
      (∀ k, k = 0 ∨ v < k → (splitLoop u v big).levels k = u.levels k) ∧
      (∀ k, k = 0 ∨ v < k → (splitLoop u v big).n k = u.n k) ∧
      (splitLoop u v big).n 1 = u.B ∧
      (∀ m, 2 ≤ m → m ≤ v → (splitLoop u v big).n m = u.B - 1) ∧
      (∀ m, 1 ≤ m → m ≤ v →
        ((splitLoop u v big).levels m).length = (splitLoop u v big).n m ∧
        (∀ j, j < (splitLoop u v big).n m →
          (((splitLoop u v big).levels m).getD j []).length = u.B ^ m)) ∧
      concatDown (splitLoop u v big) v = big := by
  intro v
  induction v with
  | zero => intro u big h; omega
  | succ v ih =>
    intro u big hv1 hBpos hbig hemp
    match v, ih with
    | 0, _ =>
      obtain ⟨hn1, hl1⟩ := hemp 1 (by omega) (by omega)
      have hchlen : big.length = u.B * u.B := by
        rw [hbig, pow_two]
      have hsm : power u.B 1 = u.B := by rw [power_eq, pow_one]
      have hlv : (splitLoop u 1 big).levels 1
          = chunkList (power u.B 1) u.B big := by
        rw [splitLoop]
        show updF u.levels 1 (u.levels 1 ++ chunkList (power u.B 1) u.B big) 1 = _
        rw [updF_same, hl1, List.nil_append]
      have hlvne : ∀ k, k ≠ 1 → (splitLoop u 1 big).levels k = u.levels k := by
        intro k hk
        rw [splitLoop]
        show updF u.levels 1 _ k = u.levels k
        rw [updF_ne _ _ hk]
      have hnv : (splitLoop u 1 big).n 1 = u.B := by
        rw [splitLoop]
        show updF u.n 1 (u.n 1 + u.B) 1 = _
        rw [updF_same, hn1, Nat.zero_add]
      have hnvne : ∀ k, k ≠ 1 → (splitLoop u 1 big).n k = u.n k := by
        intro k hk
        rw [splitLoop]
        show updF u.n 1 _ k = u.n k
        rw [updF_ne _ _ hk]
      refine ⟨rfl, rfl, rfl,
        (fun k hk => hlvne k (by omega)), (fun k hk => hnvne k (by omega)),
        hnv, (fun m h2 hm => by omega), ?_, ?_⟩
      · intro m h1 hm
        have hm1 : m = 1 := by omega
        subst hm1
        constructor
        · rw [hlv, hnv, hsm, chunkList_length]
        · intro j hj
          rw [hnv] at hj
          rw [hlv, hsm, pow_one]
          exact chunkList_getD_length u.B u.B big hchlen j hj
      · rw [concatDown, concatDown, hlv, hsm, List.append_nil]
        exact chunkList_flatten u.B u.B big hchlen
    | v+1, ih =>
      obtain ⟨hnv2, hlv2⟩ := hemp (v+2) (by omega) (by omega)
      have hchlen : big.length = u.B * u.B ^ (v+2) := by
        rw [hbig, pow_succ, Nat.mul_comm]
      obtain ⟨b0, hb0⟩ : ∃ b0, u.B = b0 + 1 := ⟨u.B - 1, by omega⟩
      have hcarrylen : ((chunkList (power u.B (v+2)) u.B big).getD (u.B - 1) []).length
          = u.B ^ (v+2) := by
        rw [power_eq]
        exact chunkList_getD_length _ u.B big (by rw [hchlen]) (u.B - 1) (by omega)
      -- the stepped state
      have hstep : splitLoop u (v+2) big
          = splitLoop
              { u with
                levels := updF u.levels (v+2)
                  (u.levels (v+2) ++ (chunkList (power u.B (v+2)) u.B big).take (u.B - 1)),
                n := updF u.n (v+2) (u.n (v+2) + (u.B - 1)) }
              (v+1) ((chunkList (power u.B (v+2)) u.B big).getD (u.B - 1) []) := by
        rw [splitLoop]
      obtain ⟨ihN, ihB, ihn0, ihlvne, ihnne, ihn1, ihmid, ihlens, ihdata⟩ :=
        ih ({ u with
                levels := updF u.levels (v+2)
                  (u.levels (v+2) ++ (chunkList (power u.B (v+2)) u.B big).take (u.B - 1)),
                n := updF u.n (v+2) (u.n (v+2) + (u.B - 1)) })
          ((chunkList (power u.B (v+2)) u.B big).getD (u.B - 1) [])
          (by omega) hBpos (by rw [hcarrylen])
          (by
            intro m h1 hm
            constructor
            · show updF u.n (v+2) _ m = 0
              rw [updF_ne _ _ (by omega)]
              exact (hemp m h1 (by omega)).1
            · show updF u.levels (v+2) _ m = []
              rw [updF_ne _ _ (by omega)]
              exact (hemp m h1 (by omega)).2)
      rw [hstep]
      have hlvmid : (splitLoop
          { u with
            levels := updF u.levels (v+2)
              (u.levels (v+2) ++ (chunkList (power u.B (v+2)) u.B big).take (u.B - 1)),
            n := updF u.n (v+2) (u.n (v+2) + (u.B - 1)) }
          (v+1) ((chunkList (power u.B (v+2)) u.B big).getD (u.B - 1) [])).levels (v+2)
          = (chunkList (power u.B (v+2)) u.B big).take (u.B - 1) := by
        rw [ihlvne (v+2) (by omega)]
        show updF u.levels (v+2) _ (v+2) = _
        rw [updF_same, hlv2, List.nil_append]
      have hnmid : (splitLoop
          { u with
            levels := updF u.levels (v+2)
              (u.levels (v+2) ++ (chunkList (power u.B (v+2)) u.B big).take (u.B - 1)),
            n := updF u.n (v+2) (u.n (v+2) + (u.B - 1)) }
          (v+1) ((chunkList (power u.B (v+2)) u.B big).getD (u.B - 1) [])).n (v+2)
          = u.B - 1 := by
        rw [ihnne (v+2) (by omega)]
        show updF u.n (v+2) _ (v+2) = _
        rw [updF_same, hnv2, Nat.zero_add]
      refine ⟨ihN, ihB, ihn0, ?_, ?_, ihn1, ?_, ?_, ?_⟩
      · intro k hk
        rw [ihlvne k (by omega)]
        show updF u.levels (v+2) _ k = u.levels k
        rw [updF_ne _ _ (by omega)]
      · intro k hk
        rw [ihnne k (by omega)]
        show updF u.n (v+2) _ k = u.n k
        rw [updF_ne _ _ (by omega)]
      · intro m h2 hm
        by_cases hmle : m ≤ v + 1
        · exact ihmid m h2 hmle
        · have hme : m = v + 2 := by omega
          subst hme
          exact hnmid
      · intro m h1 hm
        by_cases hmle : m ≤ v + 1
        · exact ihlens m h1 hmle
        · have hme : m = v + 2 := by omega
          subst hme
          constructor
          · rw [hlvmid, hnmid, List.length_take, chunkList_length]
            exact min_eq_left (by omega)
          · intro j hj
            rw [hnmid] at hj
            rw [hlvmid, getD_take_of_lt _ _ hj, power_eq]
            exact chunkList_getD_length _ u.B big (by rw [hchlen]) j (by omega)
      · rw [concatDown, hlvmid, ihdata]
        have := chunkList_take_carry (u.B ^ (v+2)) b0 big
          (by rw [hchlen, hb0])
        rw [power_eq, hb0]
        rw [hb0] at this
        have hsub : b0 + 1 - 1 = b0 := by omega
        rw [hsub]
        exact this

end RArr

namespace RArr

theorem split_k_exists {α : Type} {r : Nat} {s : RA α} (hs : SInv r s) (hn1 : s.n 1 = 0)
    (hNpos : 0 < s.N) :
    ∃ k, 2 ≤ k ∧ k < r ∧ 0 < s.n k := by
  by_contra hno
  push_neg at hno
  have hlempty : ∀ k, 2 ≤ k → k ≤ r - 1 → s.levels k = [] := by
    intro k h2 hk
    have hz : s.n k = 0 := by
      have := hno k h2 (by have := hs.hr; omega)
      omega
    have hl := hs.hlen k
    rw [hz] at hl
    exact List.length_eq_zero.mp hl
  have hl1 : s.levels 1 = [] := by
    have hl := hs.hlen 1
    rw [hn1] at hl
    exact List.length_eq_zero.mp hl
  have hrep : repList r s = [] := by
    rw [repList, bigConcat_nil s (r-1) hlempty, hl1]
    rfl
  rw [hs.hN, hrep] at hNpos
  simp at hNpos

theorem repList_ign_n0 {α : Type} (r : Nat) (s : RA α) (x : Nat) :
    repList r { s with n0 := x } = repList r s := by
  have h : ∀ k, 2 ≤ k → k ≤ r - 1 →
      (({ s with n0 := x } : RA α)).levels k = s.levels k := fun k _ _ => rfl
  rw [repList, repList, bigConcat_congr (r-1) h]

theorem splitBlocks_spec {α : Type} {r : Nat} {s : RA α} (hs : SInv r s)
    (hn1 : s.n 1 = 0) (hNpos : 0 < s.N) :
    ∃ t, splitBlocks r s = (t, none) ∧ SInv r t ∧
      t.N = s.N ∧ t.B = s.B ∧ t.n0 = s.B ∧ repList r t = repList r s ∧ t.n 1 = s.B := by
  have hB4 := hs.hB4
  have hr2 := hs.hr
  have hn0z : s.n0 = 0 := by
    rcases hs.hlvl1 with ⟨-, h⟩ | ⟨-, -, h1, -⟩
    · exact h
    · omega
  obtain ⟨k0, hk02, hk0r, hk0pos⟩ := split_k_exists hs hn1 hNpos
  obtain ⟨kf, hkf⟩ := scanPos_isSome s.n (r-2) 2 ⟨k0, by omega, by omega, hk0pos⟩
  obtain ⟨hkf2, hkfub, hkfpos, hkfmin⟩ := scanPos_some_spec s.n (r-2) 2 kf hkf
  have hkfr : kf < r := by omega
  obtain ⟨q, rfl⟩ : ∃ q, kf = q + 2 := ⟨kf - 2, by omega⟩
  have hlenk : (s.levels (q+2)).length = s.n (q+2) := hs.hlen (q+2)
  have hbiglen : ((s.levels (q+2)).getD (s.n (q+2) - 1) []).length = s.B ^ (q+2) :=
    hs.hbig (q+2) (by omega) hkfr (s.n (q+2) - 1) (by omega)
  have hl1 : s.levels 1 = [] := by
    have hl := hs.hlen 1
    rw [hn1] at hl
    exact List.length_eq_zero.mp hl
  have hlmid : ∀ m, 2 ≤ m → m ≤ q + 1 → s.levels m = [] := by
    intro m h2 hm
    have hz : s.n m = 0 := hkfmin m h2 (by omega)
    have hl := hs.hlen m
    rw [hz] at hl
    exact List.length_eq_zero.mp hl
  obtain ⟨ihN, ihB, ihn0, ihlvne, ihnne, ihn1, ihmid, ihlens, ihdata⟩ :=
    splitLoop_spec (q+1)
      ({ s with
          levels := updF s.levels (q+2) (s.levels (q+2)).dropLast,
          n := updF s.n (q+2) (s.n (q+2) - 1) })
      ((s.levels (q+2)).getD (s.n (q+2) - 1) [])
      (by omega) (by show 0 < s.B; omega) (by show _ = s.B ^ (q+2); exact hbiglen)
      (by
        intro m h1 hm
        constructor
        · show updF s.n (q+2) _ m = 0
          rw [updF_ne _ _ (by omega)]
          by_cases hm1 : m = 1
          · subst hm1; exact hn1
          · exact hkfmin m (by omega) (by omega)
        · show updF s.levels (q+2) _ m = []
          rw [updF_ne _ _ (by omega)]
          by_cases hm1 : m = 1
          · subst hm1; exact hl1
          · exact hlmid m (by omega) (by omega))
  have hwlvk : (splitLoop
      ({ s with
          levels := updF s.levels (q+2) (s.levels (q+2)).dropLast,
          n := updF s.n (q+2) (s.n (q+2) - 1) })
      (q+1) ((s.levels (q+2)).getD (s.n (q+2) - 1) [])).levels (q+2)
      = (s.levels (q+2)).dropLast := by
    rw [ihlvne (q+2) (by omega)]
    show updF s.levels (q+2) _ (q+2) = _
    rw [updF_same]
  have hwnk : (splitLoop
      ({ s with
          levels := updF s.levels (q+2) (s.levels (q+2)).dropLast,
          n := updF s.n (q+2) (s.n (q+2) - 1) })
      (q+1) ((s.levels (q+2)).getD (s.n (q+2) - 1) [])).n (q+2)
      = s.n (q+2) - 1 := by
    rw [ihnne (q+2) (by omega)]
    show updF s.n (q+2) _ (q+2) = _
    rw [updF_same]
  have hwlvhigh : ∀ k, k = 0 ∨ q + 2 < k → (splitLoop
      ({ s with
          levels := updF s.levels (q+2) (s.levels (q+2)).dropLast,
          n := updF s.n (q+2) (s.n (q+2) - 1) })
      (q+1) ((s.levels (q+2)).getD (s.n (q+2) - 1) [])).levels k = s.levels k := by
    intro k hk
    rw [ihlvne k (by omega)]
    show updF s.levels (q+2) _ k = s.levels k
    rw [updF_ne _ _ (by omega)]
  have hwnhigh : ∀ k, k = 0 ∨ q + 2 < k → (splitLoop
      ({ s with
          levels := updF s.levels (q+2) (s.levels (q+2)).dropLast,
          n := updF s.n (q+2) (s.n (q+2) - 1) })
      (q+1) ((s.levels (q+2)).getD (s.n (q+2) - 1) [])).n k = s.n k := by
    intro k hk
    rw [ihnne k (by omega)]
    show updF s.n (q+2) _ k = s.n k
    rw [updF_ne _ _ (by omega)]
  have hdecomp : (s.levels (q+2)).dropLast
        ++ [(s.levels (q+2)).getD (s.n (q+2) - 1) []] = s.levels (q+2) := by
    have h2 := take_concat_getD ([] : List α) (s.levels (q+2)) (by rw [hlenk]; omega)
    rw [hlenk] at h2
    rw [List.dropLast_eq_take, hlenk]
    exact h2
  have hempty_low : ∀ k, 1 ≤ k → k ≤ q + 1 → s.levels k = [] := by
    intro k h1 hk
    by_cases hk1 : k = 1
    · subst hk1; exact hl1
    · exact hlmid k (by omega) hk
  have hreps : repList r (splitLoop
      ({ s with
          levels := updF s.levels (q+2) (s.levels (q+2)).dropLast,
          n := updF s.n (q+2) (s.n (q+2) - 1) })
      (q+1) ((s.levels (q+2)).getD (s.n (q+2) - 1) [])) = repList r s := by
    refine repList_agree (q+2) hr2 (by omega) (by omega)
      (fun k hk => hwlvhigh k (Or.inr hk)) ?_
    rw [concatDown, hwlvk, ihdata, concatDown, concatDown_nil s (q+1) hempty_low,
      List.append_nil]
    conv_rhs => rw [← hdecomp]
    rw [List.flatten_concat]
  have hWB : (splitLoop
      ({ s with
          levels := updF s.levels (q+2) (s.levels (q+2)).dropLast,
          n := updF s.n (q+2) (s.n (q+2) - 1) })
      (q+1) ((s.levels (q+2)).getD (s.n (q+2) - 1) [])).B = s.B := ihB
  have hWN : (splitLoop
      ({ s with
          levels := updF s.levels (q+2) (s.levels (q+2)).dropLast,
          n := updF s.n (q+2) (s.n (q+2) - 1) })
      (q+1) ((s.levels (q+2)).getD (s.n (q+2) - 1) [])).N = s.N := ihN
  have hWn1 : (splitLoop
      ({ s with
          levels := updF s.levels (q+2) (s.levels (q+2)).dropLast,
          n := updF s.n (q+2) (s.n (q+2) - 1) })
      (q+1) ((s.levels (q+2)).getD (s.n (q+2) - 1) [])).n 1 = s.B := ihn1
  have heq : splitBlocks r s
      = ({ (splitLoop
            ({ s with
                levels := updF s.levels (q+2) (s.levels (q+2)).dropLast,
                n := updF s.n (q+2) (s.n (q+2) - 1) })
            (q+1) ((s.levels (q+2)).getD (s.n (q+2) - 1) [])) with
           n0 := (splitLoop
            ({ s with
                levels := updF s.levels (q+2) (s.levels (q+2)).dropLast,
                n := updF s.n (q+2) (s.n (q+2) - 1) })
            (q+1) ((s.levels (q+2)).getD (s.n (q+2) - 1) [])).B }, none) := by
    rw [splitBlocks, hkf]
    rfl
  refine ⟨_, heq, ?_, hWN, hWB, hWB, by rw [repList_ign_n0]; exact hreps, hWn1⟩
  refine
    { hr := hr2
      hBform := by rw [hWB]; exact hs.hBform
      hlen := ?_
      hout := ?_
      hbig := ?_
      hlvl1 := ?_
      hnle := ?_
      hN := ?_ }
  · intro k
    by_cases hk1 : 1 ≤ k ∧ k ≤ q + 1
    · exact (ihlens k hk1.1 hk1.2).1
    · by_cases hk2 : k = q + 2
      · subst hk2
        show ((splitLoop _ (q+1) _).levels (q+2)).length = (splitLoop _ (q+1) _).n (q+2)
        rw [hwlvk, hwnk, List.length_dropLast, hlenk]
      · have hk0 : k = 0 ∨ q + 2 < k := by omega
        show ((splitLoop _ (q+1) _).levels k).length = (splitLoop _ (q+1) _).n k
        rw [hwlvhigh k hk0, hwnhigh k hk0]
        exact hs.hlen k
  · intro k hk
    show (splitLoop _ (q+1) _).n k = 0
    rw [hwnhigh k (by omega)]
    exact hs.hout k hk
  · intro k h2 hkr j hj
    by_cases hkle : k ≤ q + 1
    · have hlen2 := (ihlens k (by omega) hkle).2 j hj
      show ((_ : List (List α)).getD j []).length = _
      rw [hWB]
      exact hlen2
    · by_cases hk2 : k = q + 2
      · subst hk2
        have hjlt : j < s.n (q+2) - 1 := by
          have := hj
          rw [hwnk] at this
          exact this
        show (((splitLoop _ (q+1) _).levels (q+2)).getD j []).length = _
        rw [hwlvk, hWB, getD_dropLast _ _ (by rw [hlenk]; omega)]
        exact hs.hbig (q+2) (by omega) hkr j (by omega)
      · have hk0 : k = 0 ∨ q + 2 < k := by omega
        have hjs : j < s.n k := by
          have := hj
          rw [hwnhigh k hk0] at this
          exact this
        show (((splitLoop _ (q+1) _).levels k).getD j []).length = _
        rw [hwlvhigh k hk0, hWB]
        exact hs.hbig k h2 hkr j hjs
  · refine Or.inr ⟨?_, ?_, ?_, ?_⟩
    · show 1 ≤ (splitLoop _ (q+1) _).B
      rw [hWB]; omega
    · show (splitLoop _ (q+1) _).B ≤ (splitLoop _ (q+1) _).B
      exact le_refl _
    · show 1 ≤ (splitLoop _ (q+1) _).n 1
      rw [hWn1]; omega
    · intro j hj
      have hjb : j < s.B := by
        have := hj
        rw [hWn1] at this
        exact this
      have hlen1 := (ihlens 1 (by omega) (by omega)).2 j (by rw [hWn1]; exact hjb)
      rw [pow_one] at hlen1
      show ((_ : List (List α)).getD j []).length = _
      rw [hlen1]
      show (({ s with
          levels := updF s.levels (q+2) (s.levels (q+2)).dropLast,
          n := updF s.n (q+2) (s.n (q+2) - 1) } : RA α)).B
        = if j + 1 = (splitLoop _ (q+1) _).n 1 then (splitLoop _ (q+1) _).B
          else (splitLoop _ (q+1) _).B
      rw [hWn1, hWB]
      by_cases hq : j + 1 = s.B
      · rw [if_pos hq]
      · rw [if_neg hq]
  · intro k h1 hkr
    by_cases hk1 : k = 1
    · subst hk1
      show (splitLoop _ (q+1) _).n 1 ≤ 2 * (splitLoop _ (q+1) _).B
      rw [hWn1, hWB]
      omega
    · by_cases hkle : k ≤ q + 1
      · have := ihmid k (by omega) hkle
        show (splitLoop _ (q+1) _).n k ≤ 2 * (splitLoop _ (q+1) _).B
        rw [hWB, this]
        omega
      · by_cases hk2 : k = q + 2
        · subst hk2
          show (splitLoop _ (q+1) _).n (q+2) ≤ 2 * (splitLoop _ (q+1) _).B
          rw [hwnk, hWB]
          have := hs.hnle (q+2) (by omega) hkr
          omega
        · show (splitLoop _ (q+1) _).n k ≤ 2 * (splitLoop _ (q+1) _).B
          rw [hwnhigh k (by omega), hWB]
          exact hs.hnle k h1 hkr
  · show (splitLoop _ (q+1) _).N = (repList r _).length
    rw [hWN, repList_ign_n0, hreps]
    exact hs.hN

end RArr

namespace RArr

/-! ### The element-removal tail of `shrink` -/

theorem popLastElem_eq_keep {α : Type} (s : RA α) (h : ¬ (s.n0 - 1 = 0)) :
    popLastElem s = { s with
      levels := updF s.levels 1 ((s.levels 1).set (s.n 1 - 1)
        (((s.levels 1).getD (s.n 1 - 1) []).dropLast)),
      n0 := s.n0 - 1, N := s.N - 1 } := by
  rw [popLastElem]
  exact if_neg h

theorem popLastElem_eq_zero {α : Type} (s : RA α) (h : s.n0 - 1 = 0)
    (h2 : s.N - 1 = 0 ∨ s.n 1 - 1 = 0) :
    popLastElem s = { s with
      levels := updF (updF s.levels 1 ((s.levels 1).set (s.n 1 - 1)
          (((s.levels 1).getD (s.n 1 - 1) []).dropLast))) 1
        ((updF s.levels 1 ((s.levels 1).set (s.n 1 - 1)
          (((s.levels 1).getD (s.n 1 - 1) []).dropLast))) 1).dropLast,
      n := updF s.n 1 (s.n 1 - 1),
      n0 := 0, N := s.N - 1 } := by
  rw [popLastElem, if_pos h]
  exact if_pos h2

theorem popLastElem_eq_full {α : Type} (s : RA α) (h : s.n0 - 1 = 0)
    (h2 : ¬ (s.N - 1 = 0 ∨ s.n 1 - 1 = 0)) :
    popLastElem s = { s with
      levels := updF (updF s.levels 1 ((s.levels 1).set (s.n 1 - 1)
          (((s.levels 1).getD (s.n 1 - 1) []).dropLast))) 1
        ((updF s.levels 1 ((s.levels 1).set (s.n 1 - 1)
          (((s.levels 1).getD (s.n 1 - 1) []).dropLast))) 1).dropLast,
      n := updF s.n 1 (s.n 1 - 1),
      n0 := s.B, N := s.N - 1 } := by
  rw [popLastElem, if_pos h]
  exact if_neg h2

end RArr

namespace RArr

theorem updF_self {β : Type} (f : Nat → β) (k : Nat) : updF f k (f k) = f := by
  funext j
  by_cases h : j = k
  · subst h; rw [updF_same]
  · rw [updF_ne _ _ h]

theorem updF_updF {β : Type} (f : Nat → β) (k : Nat) (a b : β) :
    updF (updF f k a) k b = updF f k b := by
  funext j
  by_cases h : j = k
  · subst h; rw [updF_same, updF_same]
  · rw [updF_ne _ _ h, updF_ne _ _ h, updF_ne _ _ h]

/-- Replacing the level-1 block list (and the level-1 counters) of a sound
state yields a sound state, provided the replacement satisfies the level-1
shape conditions; the logical sequence becomes the big levels followed by the
new level-1 content. -/
theorem level1Surgery {α : Type} {r : Nat} {s : RA α} (hs : SInv r s)
    (L1 : List (List α)) (n1' n0' N' : Nat)
    (hlenL : L1.length = n1')
    (hlvl : (n1' = 0 ∧ n0' = 0) ∨
      (1 ≤ n0' ∧ n0' ≤ s.B ∧ 1 ≤ n1' ∧
        ∀ j, j < n1' → (L1.getD j []).length = if j + 1 = n1' then n0' else s.B))
    (hnle1 : n1' ≤ 2 * s.B)
    (hNlen : N' = (bigConcat s (r-1)).length + L1.flatten.length) :
    SInv r ({ s with levels := updF s.levels 1 L1, n := updF s.n 1 n1',
                     n0 := n0', N := N' } : RA α) ∧
    repList r ({ s with levels := updF s.levels 1 L1, n := updF s.n 1 n1',
                        n0 := n0', N := N' } : RA α)
      = bigConcat s (r-1) ++ L1.flatten := by
  have hr2 := hs.hr
  have hrep : repList r ({ s with levels := updF s.levels 1 L1, n := updF s.n 1 n1',
                                  n0 := n0', N := N' } : RA α)
      = bigConcat s (r-1) ++ L1.flatten := by
    have hagree : ∀ k, 2 ≤ k → k ≤ r - 1 →
        (({ s with levels := updF s.levels 1 L1, n := updF s.n 1 n1',
                   n0 := n0', N := N' } : RA α)).levels k = s.levels k := by
      intro k h2 hk
      show updF s.levels 1 L1 k = s.levels k
      rw [updF_ne _ _ (by omega)]
    rw [repList, bigConcat_congr (r-1) hagree]
    rfl
  refine ⟨?_, hrep⟩
  refine
    { hr := hr2
      hBform := hs.hBform
      hlen := ?_
      hout := ?_
      hbig := ?_
      hlvl1 := ?_
      hnle := ?_
      hN := ?_ }
  · intro k
    by_cases hk : k = 1
    · subst hk
      show (updF s.levels 1 L1 1).length = updF s.n 1 n1' 1
      rw [updF_same, updF_same, hlenL]
    · show (updF s.levels 1 L1 k).length = updF s.n 1 n1' k
      rw [updF_ne _ _ hk, updF_ne _ _ hk]
      exact hs.hlen k
  · intro k hk
    show updF s.n 1 n1' k = 0
    rw [updF_ne _ _ (by omega)]
    exact hs.hout k hk
  · intro k h2 hkr j hj
    show ((updF s.levels 1 L1 k).getD j []).length = s.B ^ k
    rw [updF_ne _ _ (show k ≠ 1 by omega)]
    refine hs.hbig k h2 hkr j ?_
    have hj2 : j < updF s.n 1 n1' k := hj
    rwa [updF_ne _ _ (show k ≠ 1 by omega)] at hj2
  · rcases hlvl with ⟨h1, h2⟩ | ⟨ha, hb, hc, hd⟩
    · refine Or.inl ⟨?_, h2⟩
      show updF s.n 1 n1' 1 = 0
      rw [updF_same]
      exact h1
    · refine Or.inr ⟨ha, hb, ?_, ?_⟩
      · show 1 ≤ updF s.n 1 n1' 1
        rw [updF_same]
        exact hc
      · intro j hj
        have hj2 : j < updF s.n 1 n1' 1 := hj
        rw [updF_same] at hj2
        show ((updF s.levels 1 L1 1).getD j []).length
          = if j + 1 = updF s.n 1 n1' 1 then n0' else s.B
        rw [updF_same, updF_same]
        exact hd j hj2
  · intro k h1 hkr
    show updF s.n 1 n1' k ≤ 2 * s.B
    by_cases hk : k = 1
    · subst hk
      rw [updF_same]
      exact hnle1
    · rw [updF_ne _ _ hk]
      exact hs.hnle k h1 hkr
  · show N' = (repList r _).length
    rw [hrep, hNlen, List.length_append]

end RArr

namespace RArr

theorem popLastElem_spec {α : Type} {r : Nat} {s : RA α} (hs : SInv r s)
    (hNpos : 0 < s.N) (hn1 : 1 ≤ s.n 1) :
    SInv r (popLastElem s) ∧ (popLastElem s).N = s.N - 1 ∧
      (popLastElem s).B = s.B ∧
      repList r (popLastElem s) = (repList r s).dropLast := by
  have hB4 := hs.hB4
  have hr2 := hs.hr
  have hlen1 : (s.levels 1).length = s.n 1 := hs.hlen 1
  obtain ⟨hn0ge, hn0le, -, hlens⟩ :
      1 ≤ s.n0 ∧ s.n0 ≤ s.B ∧ 1 ≤ s.n 1 ∧
        ∀ j, j < s.n 1 →
          ((s.levels 1).getD j []).length = if j + 1 = s.n 1 then s.n0 else s.B := by
    rcases hs.hlvl1 with ⟨h0, -⟩ | h
    · omega
    · exact h
  have hdec := take_concat_getD ([] : List α) (s.levels 1) (by omega)
  rw [hlen1] at hdec
  have htakelen : ((s.levels 1).take (s.n 1 - 1)).length = s.n 1 - 1 := by
    rw [List.length_take, hlen1]
    exact min_eq_left (by omega)
  have huni : ∀ j, j < s.n 1 - 1 →
      (((s.levels 1).take (s.n 1 - 1)).getD j []).length = s.B := by
    intro j hj
    rw [getD_take_of_lt _ _ hj]
    have := hlens j (by omega)
    rwa [if_neg (by omega)] at this
  have hfrontlen : (((s.levels 1).take (s.n 1 - 1)).flatten).length
      = (s.n 1 - 1) * s.B := by
    rw [flatten_length_uniform s.B _
        (fun j hj => huni j (by rw [htakelen] at hj; exact hj)), htakelen]
  have hlastlen : ((s.levels 1).getD (s.n 1 - 1) []).length = s.n0 := by
    have := hlens (s.n 1 - 1) (by omega)
    rwa [if_pos (by omega)] at this
  have hlbne : (s.levels 1).getD (s.n 1 - 1) [] ≠ [] := by
    intro hcon
    rw [hcon] at hlastlen
    simp at hlastlen
    omega
  obtain ⟨lb', y, hlb⟩ :=
    (List.eq_nil_or_concat ((s.levels 1).getD (s.n 1 - 1) [])).resolve_left hlbne
  rw [List.concat_eq_append] at hlb
  have hlbdrop : ((s.levels 1).getD (s.n 1 - 1) []).dropLast = lb' := by
    rw [hlb, List.dropLast_concat]
  have hlb'len : lb'.length = s.n0 - 1 := by
    have h2 := hlastlen
    rw [hlb, List.length_append] at h2
    simp at h2
    omega
  have hLs : (s.levels 1).set (s.n 1 - 1) (((s.levels 1).getD (s.n 1 - 1) []).dropLast)
      = (s.levels 1).take (s.n 1 - 1) ++ [lb'] := by
    rw [hlbdrop]
    conv_lhs => rw [← hdec]
    rw [List.set_append_right _ _ (le_of_eq htakelen), htakelen, Nat.sub_self,
      List.set_cons_zero]
  have hflat1 : (s.levels 1).flatten
      = ((s.levels 1).take (s.n 1 - 1)).flatten ++ (lb' ++ [y]) := by
    conv_lhs => rw [← hdec]
    rw [List.flatten_concat, hlb]
  have hrepdrop : (repList r s).dropLast
      = bigConcat s (r-1) ++ (((s.levels 1).take (s.n 1 - 1)).flatten ++ lb') := by
    rw [repList, hflat1, ← List.append_assoc, ← List.append_assoc,
      List.dropLast_concat, List.append_assoc]
  have harith : s.N = (bigConcat s (r-1)).length + ((s.n 1 - 1) * s.B + s.n0) := by
    rw [hs.hN, repList, List.length_append, hs.flatten_lvl1_length, if_neg (by omega)]
  by_cases hkeep : s.n0 - 1 = 0
  · have hn0e : s.n0 = 1 := by omega
    have hlb'nil : lb' = [] := by
      rw [← List.length_eq_zero, hlb'len]
      omega
    have hLsF : (s.levels 1).set (s.n 1 - 1)
          (((s.levels 1).getD (s.n 1 - 1) []).dropLast)
        = (s.levels 1).take (s.n 1 - 1) ++ [[]] := by
      rw [hLs, hlb'nil]
    have hlevelF : updF (updF s.levels 1 ((s.levels 1).set (s.n 1 - 1)
          (((s.levels 1).getD (s.n 1 - 1) []).dropLast))) 1
        ((updF s.levels 1 ((s.levels 1).set (s.n 1 - 1)
          (((s.levels 1).getD (s.n 1 - 1) []).dropLast))) 1).dropLast
        = updF s.levels 1 ((s.levels 1).take (s.n 1 - 1)) := by
      rw [updF_same, hLsF, List.dropLast_concat, updF_updF]
    have hNlen : s.N - 1 = (bigConcat s (r-1)).length
        + (((s.levels 1).take (s.n 1 - 1)).flatten).length := by
      rw [hfrontlen]
      omega
    have hrepgoal : bigConcat s (r-1) ++ ((s.levels 1).take (s.n 1 - 1)).flatten
        = (repList r s).dropLast := by
      rw [hrepdrop, hlb'nil, List.append_nil]
    by_cases hzero : s.N - 1 = 0 ∨ s.n 1 - 1 = 0
    · have hn1z : s.n 1 - 1 = 0 := by
        rcases hzero with hz | hz
        · rcases Nat.eq_zero_or_pos (s.n 1 - 1) with h | h
          · exact h
          · exfalso
            have h1B : 1 * s.B ≤ (s.n 1 - 1) * s.B := Nat.mul_le_mul_right _ h
            rw [Nat.one_mul] at h1B
            omega
        · exact hz
      obtain ⟨hsur1, hsur2⟩ := level1Surgery hs ((s.levels 1).take (s.n 1 - 1))
        (s.n 1 - 1) 0 (s.N - 1) htakelen (Or.inl ⟨hn1z, rfl⟩) (by omega) hNlen
      rw [popLastElem_eq_zero s hkeep hzero, hlevelF]
      exact ⟨hsur1, rfl, rfl, by rw [hsur2]; exact hrepgoal⟩
    · obtain ⟨hsur1, hsur2⟩ := level1Surgery hs ((s.levels 1).take (s.n 1 - 1))
        (s.n 1 - 1) s.B (s.N - 1) htakelen
        (Or.inr ⟨by omega, le_refl _, by omega, by
          intro j hj
          rw [huni j hj]
          by_cases hq : j + 1 = s.n 1 - 1
          · rw [if_pos hq]
          · rw [if_neg hq]⟩)
        (by have := hs.hnle 1 (by omega) (by omega); omega) hNlen
      rw [popLastElem_eq_full s hkeep hzero, hlevelF]
      exact ⟨hsur1, rfl, rfl, by rw [hsur2]; exact hrepgoal⟩
  · obtain ⟨hsur1, hsur2⟩ := level1Surgery hs
      ((s.levels 1).set (s.n 1 - 1) (((s.levels 1).getD (s.n 1 - 1) []).dropLast))
      (s.n 1) (s.n0 - 1) (s.N - 1)
      (by rw [List.length_set, hlen1])
      (Or.inr ⟨by omega, by omega, by omega, by
        intro j hj
        rw [hLs]
        by_cases hjn : j < s.n 1 - 1
        · rw [getD_append_left _ _ _ (by rw [htakelen]; exact hjn), huni j hjn,
            if_neg (by omega)]
        · have hje : j = s.n 1 - 1 := by omega
          rw [getD_append_right _ _ _ (by rw [htakelen]; omega), htakelen, hje,
            Nat.sub_self, if_pos (by omega)]
          show lb'.length = s.n0 - 1
          exact hlb'len⟩)
      (hs.hnle 1 (by omega) (by omega))
      (by
        rw [hLs, List.flatten_concat, List.length_append, hfrontlen, hlb'len]
        omega)
    rw [updF_self] at hsur1 hsur2
    rw [popLastElem_eq_keep s hkeep]
    refine ⟨hsur1, rfl, rfl, ?_⟩
    rw [hsur2, hLs, List.flatten_concat, hrepdrop]

end RArr

namespace RArr

theorem splitPop_spec {α : Type} {r : Nat} {s1 : RA α} (hs1 : SInv r s1)
    (hNpos : 0 < s1.N) :
    ∃ s2, (if s1.n 1 = 0 then splitBlocks r s1 else (s1, none)) = (s2, none) ∧
      SInv r (popLastElem s2) ∧ (popLastElem s2).N = s1.N - 1 ∧
      (popLastElem s2).B = s1.B ∧
      repList r (popLastElem s2) = (repList r s1).dropLast := by
  by_cases hn1z : s1.n 1 = 0
  · obtain ⟨s2, hsplit, hs2, hN2, hB2, hn02, hrep2, hn12⟩ :=
      splitBlocks_spec hs1 hn1z hNpos
    have hpop := popLastElem_spec hs2 (by rw [hN2]; exact hNpos)
      (by rw [hn12]; have := hs1.hB4; omega)
    exact ⟨s2, by rw [if_pos hn1z, hsplit], hpop.1,
      by rw [hpop.2.1, hN2], by rw [hpop.2.2.1, hB2], by rw [hpop.2.2.2, hrep2]⟩
  · have hpop := popLastElem_spec hs1 hNpos (Nat.pos_of_ne_zero hn1z)
    exact ⟨s1, by rw [if_neg hn1z], hpop.1, hpop.2.1, hpop.2.2.1, hpop.2.2.2⟩

theorem shrink_empty {α : Type} [Inhabited α] (r : Nat) (s : RA α) (h : s.N = 0) :
    shrink r s = (s, some .emptyContainer) := by
  rw [shrink, if_pos h]

theorem shrink_spec {α : Type} [Inhabited α] {r : Nat} {s : RA α} (hs : Inv r s)
    (hNpos : 0 < s.N) :
    ∃ t, shrink r s = (t, none) ∧ Inv r t ∧ t.N = s.N - 1 ∧
      repList r t = (repList r s).dropLast ∧
      (8 ≤ s.B ∧ s.N = (s.B / 4) ^ r → t.B = s.B / 2) ∧
      (¬ (8 ≤ s.B ∧ s.N = (s.B / 4) ^ r) → t.B = s.B) := by
  have hsv := hs.toSInv
  have hr2 := hsv.hr
  obtain ⟨m, hBm⟩ := hsv.hBform
  by_cases htrig : 8 ≤ s.B ∧ s.N = power (s.B / 4) r
  · obtain ⟨h8, hNeq⟩ := htrig
    rw [power_eq] at hNeq
    have hmpos : 1 ≤ m := by
      rcases Nat.eq_zero_or_pos m with h0 | h1
      · subst h0; rw [pow_zero, mul_one] at hBm; omega
      · exact h1
    have h2m : (2:Nat) ^ m = 2 * 2 ^ (m - 1) := by
      conv_lhs => rw [show m = (m-1)+1 by omega]
      rw [pow_succ]
      ring
    have hB2 : s.B / 2 = 4 * 2 ^ (m - 1) := by omega
    have hB4v : s.B / 4 = 2 ^ m := by omega
    have hform : ∃ k, s.B / 2 = 4 * 2 ^ k := ⟨m - 1, hB2⟩
    have hcap : s.N ≤ (s.B / 2) ^ r := by
      rw [hNeq]
      exact Nat.pow_le_pow_left (by omega) r
    obtain ⟨s1, hreb, hs1, hB1, hN1, hrep1⟩ := rebuild_spec hsv hform hcap
    obtain ⟨s2, hsp, hsvp, hNp, hBp, hrepp⟩ :=
      splitPop_spec hs1 (by rw [hN1]; exact hNpos)
    have hshr : shrink r s = (popLastElem s2, none) := by
      rw [shrink, if_neg (by omega),
        if_pos (⟨h8, by rw [power_eq]; exact hNeq⟩ : 8 ≤ s.B ∧ s.N = power (s.B / 4) r),
        hreb]
      simp only [hsp]
    have hNle : (popLastElem s2).N ≤ (popLastElem s2).B ^ r := by
      rw [hNp, hN1, hBp, hB1]
      exact le_trans (Nat.sub_le _ _) hcap
    have hNge : 8 ≤ (popLastElem s2).B → ((popLastElem s2).B / 4) ^ r ≤ (popLastElem s2).N := by
      rw [hBp, hB1, hNp, hN1]
      intro h8s
      have hm2 : 2 ≤ 2 ^ (m - 1) := by omega
      have hq : (s.B / 2) / 4 = 2 ^ (m - 1) := by omega
      have hX : (0:Nat) < (2 ^ (m - 1)) ^ r := Nat.pos_pow_of_pos _ (by omega)
      rw [hq, hNeq, hB4v, h2m, mul_pow]
      have h2r : (2:Nat) ≤ 2 ^ r := by
        calc (2:Nat) = 2 ^ 1 := (pow_one 2).symm
        _ ≤ 2 ^ r := Nat.pow_le_pow_right (by omega) (by omega)
      have hXle : 2 * (2 ^ (m - 1)) ^ r ≤ 2 ^ r * (2 ^ (m - 1)) ^ r :=
        Nat.mul_le_mul_right _ h2r
      have hlt : (2 ^ (m - 1)) ^ r < 2 ^ r * (2 ^ (m - 1)) ^ r :=
        lt_of_lt_of_le (by omega) hXle
      exact Nat.le_sub_one_of_lt hlt
    refine ⟨popLastElem s2, hshr, ⟨hsvp, hNle, hNge⟩, ?_, ?_, ?_, ?_⟩
    · rw [hNp, hN1]
    · rw [hrepp, hrep1]
    · intro _; rw [hBp, hB1]
    · intro hcon; exact absurd ⟨h8, hNeq⟩ hcon
  · obtain ⟨s2, hsp, hsvp, hNp, hBp, hrepp⟩ := splitPop_spec hsv hNpos
    have hshr : shrink r s = (popLastElem s2, none) := by
      rw [shrink, if_neg (by omega), if_neg htrig]
      simp only [hsp]
    have hNle : (popLastElem s2).N ≤ (popLastElem s2).B ^ r := by
      rw [hNp, hBp]
      exact le_trans (Nat.sub_le _ _) hs.hNle
    have hNge : 8 ≤ (popLastElem s2).B → ((popLastElem s2).B / 4) ^ r ≤ (popLastElem s2).N := by
      rw [hBp, hNp]
      intro h8
      have hge := hs.hNge h8
      have hne : s.N ≠ (s.B / 4) ^ r := by
        intro hcon
        exact htrig ⟨h8, by rw [power_eq]; exact hcon⟩
      omega
    refine ⟨popLastElem s2, hshr, ⟨hsvp, hNle, hNge⟩, hNp, ?_, ?_, ?_⟩
    · rw [hrepp]
    · intro hcon
      exact absurd (⟨hcon.1, by rw [power_eq]; exact hcon.2⟩ :
        8 ≤ s.B ∧ s.N = power (s.B / 4) r) htrig
    · intro _; rw [hBp]

end RArr

namespace RArr

theorem set_oob {α : Type} (r : Nat) (s : RA α) {i : Nat} (v : α) (hi : s.N ≤ i) :
    set r s i v = (s, some .indexOutOfRange) := by
  rw [set, if_pos hi]

theorem execOp_spec {α : Type} [Inhabited α] {r : Nat} {s : RA α} (hs : Inv r s) :
    ∀ op : Op α, Inv r (execOp r s op) ∧
      repList r (execOp r s op) = absOp (repList r s) op
  | .append x => by
    obtain ⟨t, heq, hinv, hN, hrep, -, -⟩ := grow_spec hs x
    simp only [execOp, applyOp, absOp, heq]
    exact ⟨hinv, hrep⟩
  | .pop => by
    by_cases hN0 : s.N = 0
    · have hnil : repList r s = [] :=
        List.length_eq_zero.mp (by rw [← hs.hN]; exact hN0)
      simp only [execOp, applyOp, absOp, shrink_empty r s hN0]
      exact ⟨hs, by rw [hnil]; rfl⟩
    · obtain ⟨t, heq, hinv, hN, hrep, -, -⟩ :=
        shrink_spec hs (Nat.pos_of_ne_zero hN0)
      simp only [execOp, applyOp, absOp, heq]
      exact ⟨hinv, hrep⟩
  | .set i x => by
    by_cases hi : i < s.N
    · obtain ⟨t, heq, hN, hB, hn, hn0, hsv, hrep⟩ := set_spec hs.toSInv hi x
      have hinv : Inv r t :=
        ⟨hsv, by rw [hN, hB]; exact hs.hNle, by rw [hN, hB]; exact hs.hNge⟩
      simp only [execOp, applyOp, absOp, heq]
      exact ⟨hinv, hrep⟩
    · have hle : s.N ≤ i := by omega
      have hlen : (repList r s).length ≤ i := by rw [← hs.hN]; exact hle
      simp only [execOp, applyOp, absOp, set_oob r s x hle]
      exact ⟨hs, (List.set_eq_of_length_le hlen).symm⟩

theorem foldl_sim {α : Type} [Inhabited α] {r : Nat} :
    ∀ (ops : List (Op α)) (s : RA α) (l : List α), Inv r s → repList r s = l →
      Inv r (ops.foldl (execOp r) s) ∧
        repList r (ops.foldl (execOp r) s) = ops.foldl absOp l := by
  intro ops
  induction ops with
  | nil => intro s l hs hl; exact ⟨hs, hl⟩
  | cons op ops ih =>
    intro s l hs hl
    obtain ⟨h1, h2⟩ := execOp_spec hs op
    exact ih (execOp r s op) (absOp l op) h1 (by rw [h2, hl])

theorem emptyWithB4_Inv {α : Type} {r : Nat} (hr : 2 ≤ r) :
    Inv r (emptyWithB 4 : RA α) :=
  ⟨emptyWithB_SInv hr ⟨0, by norm_num⟩, Nat.zero_le _,
    fun h8 => absurd h8 ((by decide : ¬ (8:Nat) ≤ 4) : ¬ 8 ≤ (emptyWithB 4 : RA α).B)⟩

theorem emptyWithB_repList {α : Type} {r : Nat} (hr : 2 ≤ r) {B : Nat}
    (hBform : ∃ m, B = 4 * 2 ^ m) : repList r (emptyWithB B : RA α) = [] :=
  List.length_eq_zero.mp (by rw [← (emptyWithB_SInv hr hBform).hN]; rfl)

theorem runOps_spec {α : Type} [Inhabited α] {r : Nat} (hr : 2 ≤ r)
    (ops : List (Op α)) :
    Inv r (runOps r ops) ∧ repList r (runOps r ops) = absRun ops := by
  rw [runOps, absRun]
  exact foldl_sim ops (emptyWithB 4) [] (emptyWithB4_Inv hr)
    (emptyWithB_repList hr ⟨0, by norm_num⟩)

theorem reach_Inv {α : Type} [Inhabited α] {r : Nat} (hr : 2 ≤ r) {s : RA α}
    (h : Reach α r s) : Inv r s := by
  obtain ⟨ops, hops⟩ := h
  rw [← hops]
  exact (runOps_spec hr ops).1

end RArr

namespace RArr

theorem capUpTo_eq {α : Type} {r : Nat} {s : RA α} (hs : SInv r s) :
    ∀ m, m < r → capUpTo s m
      = (bigConcat s m).length + (if m = 0 then 0 else s.n 1 * s.B) := by
  intro m
  induction m with
  | zero => intro _; rfl
  | succ m ih =>
    intro hmr
    match m, ih with
    | 0, _ =>
      show capUpTo s 0 + (s.levels 1).length * s.B ^ 1
        = (bigConcat s 1).length + (if 1 = 0 then 0 else s.n 1 * s.B)
      rw [hs.hlen 1]
      simp [capUpTo, bigConcat, pow_one]
    | m+1, ih =>
      have hih := ih (by omega)
      have hflat := hs.flatten_big_length (show 2 ≤ m+2 by omega)
        (show m+2 < r by omega)
      show capUpTo s (m+1) + (s.levels (m+2)).length * s.B ^ (m+2)
        = (bigConcat s (m+2)).length + (if m+2 = 0 then 0 else s.n 1 * s.B)
      rw [hih, bigConcat, List.length_append, hflat, hs.hlen (m+2),
        if_neg (show ¬ m+1 = 0 by omega), if_neg (show ¬ m+2 = 0 by omega)]
      omega

theorem allocCap_le {α : Type} {r : Nat} {s : RA α} (hs : SInv r s) :
    allocCap r s ≤ s.N + s.B := by
  have hr2 := hs.hr
  have hcap := capUpTo_eq hs (r-1) (by omega)
  have hflat1 := hs.flatten_lvl1_length
  have hN : s.N = (bigConcat s (r-1)).length + (s.levels 1).flatten.length := by
    rw [hs.hN, repList, List.length_append]
  rw [allocCap, hcap, if_neg (by omega)]
  rcases hs.hlvl1 with ⟨h0, -⟩ | ⟨hn0ge, hn0le, hn1ge, -⟩
  · rw [if_pos h0] at hflat1
    rw [h0]
    omega
  · rw [if_neg (by omega)] at hflat1
    have hmul : s.n 1 * s.B = (s.n 1 - 1) * s.B + s.B := by
      conv_lhs => rw [show s.n 1 = (s.n 1 - 1) + 1 by omega]
      rw [Nat.succ_mul]
    omega

theorem copyCtor_spec {α : Type} [Inhabited α] {r : Nat} {s : RA α} (hs : Inv r s) :
    ∃ t, copyCtor r s = (t, none) ∧ SInv r t ∧ t.B = s.B ∧ t.N = s.N ∧
      repList r t = repList r s := by
  have hcapt := captureFrom_all hs.toSInv
  have hempty : SInv r (emptyWithB s.B : RA α) := emptyWithB_SInv hs.hr hs.hBform
  obtain ⟨t, heqt, hsvt, hBt, hNt, hrept⟩ :=
    growList_spec (repList r s) (emptyWithB s.B) hempty
      (by
        show 0 + (repList r s).length ≤ s.B ^ r
        rw [Nat.zero_add, ← hs.hN]
        exact hs.hNle)
  refine ⟨t, ?_, hsvt, hBt, ?_, ?_⟩
  · rw [copyCtor, hcapt]
    exact heqt
  · rw [hNt]
    show 0 + (repList r s).length = s.N
    rw [Nat.zero_add, hs.hN]
  · rw [hrept, emptyWithB_repList hs.hr hs.hBform]
    rfl

end RArr

namespace RArr

/-- C1: for every sequence of append, pop and set operations from a
default-constructed container and every index `i < len()`, `at(i)` returns the
value at position `i` of the abstract sequence — the i-th surviving append in
insertion order, possibly overwritten by the most recent `set(i, v)` — which
`absRun` computes. -/
theorem claim_C1 {α : Type} [Inhabited α] {r : Nat} (hr : 2 ≤ r)
    (ops : List (Op α)) {i : Nat} (hi : i < (runOps r ops).N) :
    get r (runOps r ops) i = .ok ((absRun ops).getD i default) := by
  obtain ⟨hinv, hrep⟩ := runOps_spec hr ops
  rw [get_spec hinv.toSInv hi, hrep]

theorem claim_C1_witness :
    (2 ≤ 2 ∧ 0 < (runOps 2 [Op.append 5, Op.append 7, Op.set 0 9]).N) ∧
      get 2 (runOps 2 [Op.append 5, Op.append 7, Op.set 0 9]) 0
        = .ok ((absRun [Op.append 5, Op.append 7, Op.set 0 9]).getD 0 default) :=
  ⟨⟨le_refl 2, by decide⟩,
    claim_C1 (le_refl 2) [Op.append 5, Op.append 7, Op.set 0 9] (by decide)⟩

/-- C2: rebuild thresholds.  On every reachable state, an append from
`N = B^r` doubles `B` and afterwards `N ≤ (newB)^r`; a pop from a nonempty
state with `B ≥ 8 = 2·INITIAL_B` and `N = (B/4)^r` halves `B`; both rebuilds
preserve the stored element sequence except for the one element the triggering
operation appends or removes. -/
theorem claim_C2 {α : Type} [Inhabited α] {r : Nat} (hr : 2 ≤ r) {s : RA α}
    (hreach : Reach α r s) (x : α) :
    (s.N = s.B ^ r →
      ∃ t, grow r x s = (t, none) ∧ t.B = 2 * s.B ∧ t.N ≤ t.B ^ r ∧
        repList r t = repList r s ++ [x]) ∧
    (0 < s.N → 8 ≤ s.B → s.N = (s.B / 4) ^ r →
      ∃ t, shrink r s = (t, none) ∧ t.B = s.B / 2 ∧ t.N ≤ t.B ^ r ∧
        repList r t = (repList r s).dropLast) := by
  have hinv := reach_Inv hr hreach
  refine ⟨?_, ?_⟩
  · intro hN
    obtain ⟨t, heq, hinvt, hNt, hrep, hdub, -⟩ := grow_spec hinv x
    exact ⟨t, heq, hdub hN, hinvt.hNle, hrep⟩
  · intro hpos h8 hNeq
    obtain ⟨t, heq, hinvt, hNt, hrep, hhalf, -⟩ := shrink_spec hinv hpos
    exact ⟨t, heq, hhalf ⟨h8, hNeq⟩, hinvt.hNle, hrep⟩

theorem claim_C2_witness :
    (2 ≤ 2 ∧ Reach Nat 2 (runOps 2 (List.replicate 16 (Op.append 0)))) ∧
      (((runOps 2 (List.replicate 16 (Op.append 0)) : RA Nat).N
          = (runOps 2 (List.replicate 16 (Op.append 0))).B ^ 2 →
        ∃ t, grow 2 1 (runOps 2 (List.replicate 16 (Op.append 0))) = (t, none) ∧
          t.B = 2 * (runOps 2 (List.replicate 16 (Op.append 0))).B ∧
          t.N ≤ t.B ^ 2 ∧
          repList 2 t
            = repList 2 (runOps 2 (List.replicate 16 (Op.append 0))) ++ [1]) ∧
       (0 < (runOps 2 (List.replicate 16 (Op.append 0))).N →
        8 ≤ (runOps 2 (List.replicate 16 (Op.append 0))).B →
        (runOps 2 (List.replicate 16 (Op.append 0))).N
          = ((runOps 2 (List.replicate 16 (Op.append 0))).B / 4) ^ 2 →
        ∃ t, shrink 2 (runOps 2 (List.replicate 16 (Op.append 0))) = (t, none) ∧
          t.B = (runOps 2 (List.replicate 16 (Op.append 0))).B / 2 ∧
          t.N ≤ t.B ^ 2 ∧
          repList 2 t
            = (repList 2 (runOps 2 (List.replicate 16 (Op.append 0)))).dropLast)) :=
  ⟨⟨le_refl 2, ⟨List.replicate 16 (Op.append 0), rfl⟩⟩,
    claim_C2 (le_refl 2) ⟨List.replicate 16 (Op.append 0), rfl⟩ 1⟩

/-- C3: space bound.  In every reachable state the total allocated capacity is
at most `N + c · N^(1/r)` with the constant `c = 4 = INITIAL_B`: for every
integer `k ≥ 1` with `N ≤ k^r` (in particular the integer ceiling of
`N^(1/r)`), the allocated capacity is at most `N + 4k`. -/
theorem claim_C3 {α : Type} [Inhabited α] {r : Nat} (hr : 2 ≤ r) {s : RA α}
    (hreach : Reach α r s) {k : Nat} (hk : 1 ≤ k) (hNk : s.N ≤ k ^ r) :
    allocCap r s ≤ s.N + 4 * k := by
  have hinv := reach_Inv hr hreach
  have hle := allocCap_le hinv.toSInv
  obtain ⟨m, hBm⟩ := hinv.hBform
  have h2m : 1 ≤ 2 ^ m := Nat.one_le_two_pow
  have hB4k : s.B ≤ 4 * k := by
    by_cases h8 : 8 ≤ s.B
    · have hge := hinv.hNge h8
      have hkr : (s.B / 4) ^ r ≤ k ^ r := le_trans hge hNk
      have hq : s.B / 4 ≤ k := by
        by_contra hq
        push_neg at hq
        exact absurd hkr (not_le_of_lt (Nat.pow_lt_pow_left hq (by omega)))
      omega
    · omega
  omega

theorem claim_C3_witness :
    (2 ≤ 2 ∧ Reach Nat 2 (runOps 2 [Op.append 3]) ∧ 1 ≤ 1 ∧
      (runOps 2 [Op.append 3]).N ≤ 1 ^ 2) ∧
    allocCap 2 (runOps 2 [Op.append 3]) ≤ (runOps 2 [Op.append 3]).N + 4 * 1 :=
  ⟨⟨le_refl 2, ⟨[Op.append 3], rfl⟩, le_refl 1, by decide⟩,
    claim_C3 (le_refl 2) ⟨[Op.append 3], rfl⟩ (le_refl 1) (by decide)⟩

/-- C4: append-then-pop restores the observable state on every reachable
container: the length returns to its previous value and every in-range read
returns the same value as before. -/
theorem claim_C4 {α : Type} [Inhabited α] {r : Nat} (hr : 2 ≤ r) {s : RA α}
    (hreach : Reach α r s) (v : α) :
    (execOp r (execOp r s (Op.append v)) Op.pop).N = s.N ∧
      ∀ j, j < s.N →
        get r (execOp r (execOp r s (Op.append v)) Op.pop) j = get r s j := by
  have hinv := reach_Inv hr hreach
  obtain ⟨t1, heq1, hinv1, hN1, hrep1, -, -⟩ := grow_spec hinv v
  have he1 : execOp r s (Op.append v) = t1 := by
    simp only [execOp, applyOp, heq1]
  obtain ⟨t2, heq2, hinv2, hN2, hrep2, -, -⟩ := shrink_spec hinv1 (by omega)
  have he2 : execOp r t1 Op.pop = t2 := by
    simp only [execOp, applyOp, heq2]
  rw [he1, he2]
  have hrep : repList r t2 = repList r s := by
    rw [hrep2, hrep1, List.dropLast_concat]
  refine ⟨by omega, ?_⟩
  intro j hj
  rw [get_spec hinv2.toSInv (by omega : j < t2.N), get_spec hinv.toSInv hj, hrep]

theorem claim_C4_witness :
    (2 ≤ 2 ∧ Reach Nat 2 (runOps 2 [Op.append 1])) ∧
      ((execOp 2 (execOp 2 (runOps 2 [Op.append 1]) (Op.append 2)) Op.pop).N
          = (runOps 2 [Op.append 1]).N ∧
        ∀ j, j < (runOps 2 [Op.append 1]).N →
          get 2 (execOp 2 (execOp 2 (runOps 2 [Op.append 1]) (Op.append 2)) Op.pop) j
            = get 2 (runOps 2 [Op.append 1]) j) :=
  ⟨⟨le_refl 2, ⟨[Op.append 1], rfl⟩⟩, claim_C4 (le_refl 2) ⟨[Op.append 1], rfl⟩ 2⟩

/-- C5: pop on an empty container signals the EmptyContainer error and
performs no mutation: the returned state component is the untouched input
state (still empty, observable state unchanged). -/
theorem claim_C5 {α : Type} [Inhabited α] (r : Nat) (s : RA α) (h : s.N = 0) :
    shrink r s = (s, some Fault.emptyContainer) :=
  shrink_empty r s h

theorem claim_C5_witness :
    (runOps 2 ([] : List (Op Nat))).N = 0 ∧
      shrink 2 (runOps 2 ([] : List (Op Nat)))
        = (runOps 2 ([] : List (Op Nat)), some Fault.emptyContainer) :=
  ⟨rfl, claim_C5 2 (runOps 2 ([] : List (Op Nat))) rfl⟩

/-- C6: out-of-range access.  For every container state and every index
`i ≥ len()`, `at(i)` fails with IndexOutOfRange and `set(i, x)` fails with
IndexOutOfRange while returning the state unchanged (same length, same base,
same elements). -/
theorem claim_C6 {α : Type} [Inhabited α] (r : Nat) (s : RA α) {i : Nat}
    (hi : s.N ≤ i) (x : α) :
    get r s i = .error Fault.indexOutOfRange ∧
      set r s i x = (s, some Fault.indexOutOfRange) :=
  ⟨get_oob r s hi, set_oob r s x hi⟩

theorem claim_C6_witness :
    (runOps 2 [Op.append 4]).N ≤ 5 ∧
      (get 2 (runOps 2 [Op.append 4]) 5 = .error Fault.indexOutOfRange ∧
        set 2 (runOps 2 [Op.append 4]) 5 7
          = (runOps 2 [Op.append 4], some Fault.indexOutOfRange)) :=
  ⟨by decide, claim_C6 2 (runOps 2 [Op.append 4]) (by decide) 7⟩

/-- C7: the specification requires the moved-from container to be usable as an
empty container, with a subsequent append succeeding and producing length 1.
In the code the move constructor and the move assignment null out `levels_`
and `n_` while setting `N_ = 0` and `n0_ = 0`, so `length()` still reads 0,
but the very first append dereferences the null `n_` (the read of `n_[1]`)
instead of succeeding: the append faults and no length-1 container results. -/
theorem claim_C7 {α : Type} [Inhabited α] (r : Nat) (x : α) (h : Handle α) :
    lenH (moveCtorFrom h).2 = 0 ∧
      growH r x (moveCtorFrom h).2 = ((none : Handle α), some Fault.nullDeref) ∧
      lenH (growH r x (moveCtorFrom h).2).1 = 0 :=
  ⟨rfl, rfl, rfl⟩

/-- C8 is refuted as stated: after 29 appends with `r = 3` the container is at
rest with `n_[1] = 8 = 2B` (where `B = 4`), exceeding the claimed rest bound
`2B - 1`. -/
theorem claim_C8_counterexample :
    Reach Nat 3 (runOps 3 (List.replicate 29 (Op.append 0))) ∧
      (runOps 3 (List.replicate 29 (Op.append 0))).n 1
        = 2 * (runOps 3 (List.replicate 29 (Op.append 0))).B ∧
      ¬ ((runOps 3 (List.replicate 29 (Op.append 0))).n 1
          ≤ 2 * (runOps 3 (List.replicate 29 (Op.append 0))).B - 1) :=
  ⟨⟨List.replicate 29 (Op.append 0), rfl⟩, by decide, by decide⟩

/-- C8, amended: at rest every level satisfies `0 ≤ n[k] ≤ 2B` for
`1 ≤ k ≤ r-1` (the bound `2B` is attained at rest — see the counterexample —
so `2B - 1` is not a rest invariant, but `2B` is). -/
theorem claim_C8 {α : Type} [Inhabited α] {r : Nat} (hr : 2 ≤ r) {s : RA α}
    (hreach : Reach α r s) : ∀ k, 1 ≤ k → k < r → s.n k ≤ 2 * s.B :=
  fun k h1 hk => (reach_Inv hr hreach).hnle k h1 hk

theorem claim_C8_witness :
    (2 ≤ 3 ∧ Reach Nat 3 (runOps 3 (List.replicate 5 (Op.append 0)))) ∧
      ∀ k, 1 ≤ k → k < 3 →
        (runOps 3 (List.replicate 5 (Op.append 0))).n k
          ≤ 2 * (runOps 3 (List.replicate 5 (Op.append 0))).B :=
  ⟨⟨by omega, ⟨List.replicate 5 (Op.append 0), rfl⟩⟩,
    claim_C8 (by omega) ⟨List.replicate 5 (Op.append 0), rfl⟩⟩

/-- C9: deep-copy independence.  Copying a reachable nonempty container
succeeds and reproduces the same element sequence; `set(0, v)` on the copy
succeeds, after which position 0 of the copy reads `v` while the original
still returns its own element at position 0, and every other in-range position
reads equal on the copy and on the original (mutating the copy never changes
the original). -/
theorem claim_C9 {α : Type} [Inhabited α] {r : Nat} (hr : 2 ≤ r) {a : RA α}
    (hreach : Reach α r a) (v : α) (hNpos : 0 < a.N) :
    ∃ b, copyCtor r a = (b, none) ∧
      ∃ b2, set r b 0 v = (b2, none) ∧
        get r b2 0 = .ok v ∧
        get r a 0 = .ok ((repList r a).getD 0 default) ∧
        (∀ j, 0 < j → j < a.N → get r b2 j = get r a j) := by
  have hinv := reach_Inv hr hreach
  obtain ⟨b, heqb, hsvb, hBb, hNb, hrepb⟩ := copyCtor_spec hinv
  obtain ⟨b2, heq2, hN2, hB2, hn2, hn02, hsv2, hrep2⟩ :=
    set_spec hsvb (show 0 < b.N by omega) v
  have hlen : 0 < (repList r a).length := by rw [← hinv.hN]; omega
  refine ⟨b, heqb, b2, heq2, ?_, get_spec hinv.toSInv hNpos, ?_⟩
  · rw [get_spec hsv2 (by omega : 0 < b2.N), hrep2, hrepb,
      getD_set_self _ v default hlen]
  · intro j h0 hj
    rw [get_spec hsv2 (by omega : j < b2.N), get_spec hinv.toSInv hj,
      hrep2, hrepb, getD_set_ne _ v default (by omega)]

theorem claim_C9_witness :
    (2 ≤ 2 ∧ Reach Nat 2 (runOps 2 [Op.append 0, Op.append 1]) ∧
      0 < (runOps 2 [Op.append 0, Op.append 1]).N) ∧
      (∃ b, copyCtor 2 (runOps 2 [Op.append 0, Op.append 1]) = (b, none) ∧
        ∃ b2, set 2 b 0 999 = (b2, none) ∧
          get 2 b2 0 = .ok 999 ∧
          get 2 (runOps 2 [Op.append 0, Op.append 1]) 0
            = .ok ((repList 2 (runOps 2 [Op.append 0, Op.append 1])).getD 0 default) ∧
          (∀ j, 0 < j → j < (runOps 2 [Op.append 0, Op.append 1]).N →
            get 2 b2 j = get 2 (runOps 2 [Op.append 0, Op.append 1]) j)) :=
  ⟨⟨le_refl 2, ⟨[Op.append 0, Op.append 1], rfl⟩, by decide⟩,
    claim_C9 (le_refl 2) ⟨[Op.append 0, Op.append 1], rfl⟩ 999 (by decide)⟩

/-- C10: whenever the append path reaches the combine step (`n[1] = 2B` and
`n0 = B` after the rebuild-up check, so with `N < B^r`), some level
`k ∈ [1, r-1]` has `n[k] < 2B`; consequently the `combineBlocks` no-k-found
failure branch is unreachable from the public interface: on reachable states
`grow` never faults at all. -/
theorem claim_C10 {α : Type} [Inhabited α] {r : Nat} (hr : 2 ≤ r) {s : RA α}
    (hreach : Reach α r s) (x : α) :
    (s.N < s.B ^ r → s.n 1 = 2 * s.B → s.n0 = s.B →
      ∃ k, 1 ≤ k ∧ k ≤ r - 1 ∧ s.n k < 2 * s.B) ∧
    (grow r x s).2 = none := by
  have hinv := reach_Inv hr hreach
  refine ⟨?_, ?_⟩
  · intro hNlt hn1 hn0
    obtain ⟨k, hk2, hkr, hklt⟩ := combine_k_exists hinv.toSInv hNlt hn1 hn0
    exact ⟨k, by omega, by omega, hklt⟩
  · obtain ⟨t, heq, -, -, -, -, -⟩ := grow_spec hinv x
    rw [heq]

theorem claim_C10_witness :
    (2 ≤ 3 ∧ Reach Nat 3 (runOps 3 (List.replicate 32 (Op.append 0)))) ∧
      (((runOps 3 (List.replicate 32 (Op.append 0))).N
            < (runOps 3 (List.replicate 32 (Op.append 0))).B ^ 3 →
          (runOps 3 (List.replicate 32 (Op.append 0))).n 1
            = 2 * (runOps 3 (List.replicate 32 (Op.append 0))).B →
          (runOps 3 (List.replicate 32 (Op.append 0))).n0
            = (runOps 3 (List.replicate 32 (Op.append 0))).B →
          ∃ k, 1 ≤ k ∧ k ≤ 3 - 1 ∧
            (runOps 3 (List.replicate 32 (Op.append 0))).n k
              < 2 * (runOps 3 (List.replicate 32 (Op.append 0))).B) ∧
        (grow 3 7 (runOps 3 (List.replicate 32 (Op.append 0)))).2 = none) :=
  ⟨⟨by omega, ⟨List.replicate 32 (Op.append 0), rfl⟩⟩,
    claim_C10 (by omega) ⟨List.replicate 32 (Op.append 0), rfl⟩ 7⟩

end RArr
